import Mathlib

/-!
Verification of the semrel version-inference engine.

Shallow embedding of the Rust sources under src/: strings are modelled as
lists of characters (ASCII-faithful), machine integers as naturals
(the repository's scalar alias Ver, declared in core/version/mod.rs, is not
part of the sources provided; the specification declares the version
components to be non-negative integers), and each Rust function is
translated definition-by-definition.
-/

namespace Semrel

/-- Strings are modelled as lists of characters. -/
abbrev Str := List Char

/-- ASCII whitespace recognizer used by Rust trim/is-whitespace on the inputs in scope. -/
def isWs (c : Char) : Bool := c = ' ' || c = '\t' || c = '\n' || c = '\r'

/-- Rust str::trim on the ASCII fragment: drop whitespace from both ends. -/
def trimStr (s : Str) : Str := ((s.dropWhile isWs).reverse.dropWhile isWs).reverse

/-- Rust str::trim_start on the ASCII fragment. -/
def trimStartStr (s : Str) : Str := s.dropWhile isWs

/-- Lowercase a string character-wise (ASCII, matching Rust to_lowercase on ASCII data). -/
def lowerStr (s : Str) : Str := s.map Char.toLower

/-- Helper for the splitters: push a character onto the first chunk. -/
def consHead (c : Char) : List Str → List Str
  | [] => [[c]]
  | p :: ps => (c :: p) :: ps

/-- Rust str::split(sep) for a single-character separator: scans left to right,
cutting at every occurrence; the empty string yields one empty part. -/
def splitChar (sep : Char) : Str → List Str
  | [] => [[]]
  | c :: rest => if c = sep then [] :: splitChar sep rest else consHead c (splitChar sep rest)

/-- Rust str::split("\n\n"): cut at the leftmost occurrence of two consecutive
newlines and continue after it. -/
def split2 : Str → List Str
  | '\n' :: '\n' :: rest => [] :: split2 rest
  | c :: rest => consHead c (split2 rest)
  | [] => [[]]

/-- Rust str::lines on LF-terminated text: split on newline, with one optional
final newline producing no trailing empty line; the empty string has no lines. -/
def rustLines (s : Str) : List Str :=
  if s = [] then []
  else
    let ps := splitChar '\n' s
    if ps.getLast? = some [] then ps.dropLast else ps

/-- Join lines with a single newline (Rust Vec::join("\n")). -/
def joinLines : List Str → Str
  | [] => []
  | [l] => l
  | l :: rest => l ++ '\n' :: joinLines rest

/-- Join paragraph blocks with a blank line (Rust Vec::join("\n\n") and the
inverse of split2). -/
def joinNN : List Str → Str
  | [] => []
  | [p] => p
  | p :: rest => p ++ '\n' :: '\n' :: joinNN rest

/-! ## BumpRule (src/core/semantic_release/bump_rule.rs) -/

/-- The bump-strength enumeration, in the Rust declaration order that the
derived Ord instance relies on. -/
inductive BumpRule
  | Notset
  | NoBump
  | Patch
  | Minor
  | Major
deriving DecidableEq

/-- Rank of a variant in declaration order; the derived Rust Ord compares these. -/
def BumpRule.toNat : BumpRule → Nat
  | .Notset => 0
  | .NoBump => 1
  | .Patch => 2
  | .Minor => 3
  | .Major => 4

/-- Rust Ord::max on BumpRule: the greater of the two in declaration order
(the second when equal). -/
def BumpRule.max (a b : BumpRule) : BumpRule := if a.toNat ≤ b.toNat then b else a

/-- Strict order on BumpRule in declaration order. -/
def BumpRule.blt (a b : BumpRule) : Bool := a.toNat < b.toNat

/-! ## SimpleVersion (src/core/version/simple_version.rs) -/

/-- The semver-like triple. Components are naturals: the scalar alias Ver is
declared in core/version/mod.rs, which is not among the provided sources;
the specification's data model declares the components to be non-negative
integers. -/
structure SimpleVersion where
  major : Nat
  minor : Nat
  patch : Nat
deriving DecidableEq

/-- SimpleVersion::increment_major. -/
def SimpleVersion.increment_major (v : SimpleVersion) : SimpleVersion :=
  { v with major := v.major + 1, minor := 0, patch := 0 }

/-- SimpleVersion::increment_minor. -/
def SimpleVersion.increment_minor (v : SimpleVersion) : SimpleVersion :=
  { v with minor := v.minor + 1, patch := 0 }

/-- SimpleVersion::increment_patch. -/
def SimpleVersion.increment_patch (v : SimpleVersion) : SimpleVersion :=
  { v with patch := v.patch + 1 }

/-- SimpleVersion::bump. -/
def SimpleVersion.bump (v : SimpleVersion) : BumpRule → SimpleVersion
  | .Major => v.increment_major
  | .Minor => v.increment_minor
  | .Patch => v.increment_patch
  | .NoBump => v
  | .Notset => v

/-- The derived Rust Ord on SimpleVersion: lexicographic on (major, minor, patch). -/
def SimpleVersion.vle (a b : SimpleVersion) : Bool :=
  a.major < b.major ||
    (a.major = b.major &&
      (a.minor < b.minor || (a.minor = b.minor && a.patch ≤ b.patch)))

/-- `a >= b` in the Rust comparison. -/
def SimpleVersion.vge (a b : SimpleVersion) : Bool := SimpleVersion.vle b a

/-- `a < b` in the Rust comparison. -/
def SimpleVersion.vlt (a b : SimpleVersion) : Bool := !(SimpleVersion.vle b a)

/-- Accumulate a digit string into a natural number. -/
def digitsToNat (ds : Str) : Nat := ds.foldl (fun acc c => acc * 10 + (c.toNat - 48)) 0

/-- Modelled from the spec: the scalar component parse used by
SimpleVersion::from_str. The Ver alias (core/version/mod.rs) is not among the
provided sources; the spec's data model says the components are non-negative
integers, so the Rust integer grammar (an optional leading plus sign followed
by one or more decimal digits) is read into a natural number. -/
def parseVer (s : Str) : Option Nat :=
  let ds := match s with
    | '+' :: rest => rest
    | _ => s
  if ds ≠ [] ∧ ds.all Char.isDigit then some (digitsToNat ds) else none

/-- impl FromStr for SimpleVersion: split on dots; 1, 2 or 3 components fill
major/minor/patch with missing components defaulting to zero; anything else is
an error (None). -/
def SimpleVersion.from_str (s : Str) : Option SimpleVersion :=
  let parts := splitChar '.' s
  match parts with
  | [a] =>
    match parseVer a with
    | some m => some ⟨m, 0, 0⟩
    | none => none
  | [a, b] =>
    match parseVer a, parseVer b with
    | some m, some n => some ⟨m, n, 0⟩
    | _, _ => none
  | [a, b, c] =>
    match parseVer a, parseVer b, parseVer c with
    | some m, some n, some p => some ⟨m, n, p⟩
    | _, _, _ => none
  | _ => none

/-- impl From<&str> for SimpleVersion: value.parse().unwrap_or_default(). -/
def SimpleVersion.from_str_infallible (s : Str) : SimpleVersion :=
  match SimpleVersion.from_str s with
  | some v => v
  | none => ⟨0, 0, 0⟩

/-! ## CommitType (src/core/conventional_commits/commit_type.rs) -/

/-- The commit-category enumeration. -/
inductive CommitType
  | Feat
  | Fix
  | Perf
  | Refactor
  | Revert
  | Style
  | Test
  | Build
  | Chore
  | Ci
  | Cd
  | Docs
  | Custom (value : Str)
  | NonCompliant
  | Unknown
deriving DecidableEq

/-- CommitType::as_str. -/
def CommitType.as_str : CommitType → Str
  | .Feat => "feat".data
  | .Fix => "fix".data
  | .Perf => "perf".data
  | .Refactor => "refactor".data
  | .Revert => "revert".data
  | .Style => "style".data
  | .Test => "test".data
  | .Build => "build".data
  | .Chore => "chore".data
  | .Ci => "ci".data
  | .Cd => "cd".data
  | .Docs => "docs".data
  | .Custom value => value
  | .NonCompliant => "NonCompliant".data
  | .Unknown => "Unknown".data

/-- impl FromStr for CommitType: match on the lowercased token, with the alias
arms of the source; unmatched tokens become Custom carrying the verbatim text.
The Rust implementation never returns an error. -/
def CommitType.fromStr (s : Str) : CommitType :=
  let t := lowerStr s
  if t = "build".data then .Build
  else if t = "chore".data then .Chore
  else if t = "ci".data ∨ t = "continuous integration".data then .Ci
  else if t = "cd".data ∨ t = "deploy".data then .Cd
  else if t = "doc".data ∨ t = "docs".data ∨ t = "documentation".data then .Docs
  else if t = "feat".data ∨ t = "feature".data ∨ t = "features".data then .Feat
  else if t = "fix".data ∨ t = "fixes".data then .Fix
  else if t = "perf".data ∨ t = "performance".data then .Perf
  else if t = "refactor".data then .Refactor
  else if t = "revert".data then .Revert
  else if t = "style".data then .Style
  else if t = "test".data ∨ t = "tests".data then .Test
  else .Custom s

/-! ## Rule map (src/core/semantic_release/bump_rule_mapping.rs) -/

/-- build_default_rules, in the order the source lists the pairs. -/
def build_default_rules : List (CommitType × BumpRule) :=
  [ (.Build, .NoBump)
  , (.Chore, .Patch)
  , (.Ci, .NoBump)
  , (.Cd, .NoBump)
  , (.Docs, .NoBump)
  , (.Feat, .Minor)
  , (.Fix, .Patch)
  , (.Perf, .Patch)
  , (.Refactor, .Patch)
  , (.Revert, .Patch)
  , (.Style, .Patch)
  , (.Test, .NoBump)
  ]

/-- match_rule: first pair whose category equals the query wins; otherwise the
BumpRule default (Notset). -/
def match_rule (rules : List (CommitType × BumpRule)) (commit_type : CommitType) : BumpRule :=
  match rules.find? (fun p => p.1 = commit_type) with
  | some p => p.2
  | none => BumpRule.Notset

/-! ## ConventionalCommit record (src/core/conventional_commits/commit.rs) -/

/-- The post-parse commit record. The field the source calls prefix is kept as
prefixOpt; the translated code never assigns it, as in the source. -/
structure ConventionalCommit where
  commit_type : CommitType
  scope : Option Str
  subject : Str
  footer : Option Str
  body : Option Str
  prefixOpt : Option Str
  breaking_change : Bool
deriving DecidableEq

/-! ## CommitInfo (src/core/git/commit_info.rs) -/

/-- A walked commit: id, touched files, parsed message, timestamp. -/
structure CommitInfo where
  id : Str
  files : List Str
  commit : ConventionalCommit
  timestamp : Nat
deriving DecidableEq

/-- CommitInfo::rule: breaking commits are Major; otherwise the rule map is
consulted — with the source's fallback to build_default_rules when the given
map is empty. -/
def CommitInfo.rule (ci : CommitInfo) (rules : List (CommitType × BumpRule)) : BumpRule :=
  if ci.commit.breaking_change then BumpRule.Major
  else
    let rules := if rules.isEmpty then build_default_rules else rules
    match_rule rules ci.commit.commit_type

/-! ## Rule composition (src/main.rs lines 119-122) -/

/-- The composed rule list of a run: CLI rules, then configuration rules, then
the built-in defaults (parse_rules(...).chain(config_rules).chain(build_default_rules())). -/
def composed_rules (cli config : List (CommitType × BumpRule)) : List (CommitType × BumpRule) :=
  cli ++ config ++ build_default_rules

/-! ## Changelog collector (src/core/git/changelog.rs) -/

/-- A stream element: a walked commit together with the manifest version
recorded at that commit, when the commit touched the manifest. -/
structure CommitWithVersion where
  commit_info : CommitInfo
  version_at_commit : Option SimpleVersion
deriving DecidableEq

/-- The collector state carried by should_stop_collecting. -/
structure StoppingContext where
  current_version : SimpleVersion
  max_bump_so_far : BumpRule
  commits_collected : List CommitInfo

/-- The boundary test shared by should_stop_collecting and the streaming
collector: the match on (max bump, minor, patch). -/
def boundary_matches (maxBump : BumpRule) (v : SimpleVersion) : Bool :=
  match maxBump, v.minor, v.patch with
  | .Major, 0, 0 => true
  | .Minor, _, 0 => true
  | .Patch, _, _ => true
  | _, _, _ => false

/-- should_stop_collecting. -/
def should_stop_collecting (context : StoppingContext) (cwv : CommitWithVersion) : Bool :=
  match cwv.version_at_commit with
  | none => false
  | some w =>
    if w.vge context.current_version then false
    else boundary_matches context.max_bump_so_far w

/-- The loop body of collect_changelog_commits_streaming, over the stream of
commits already paired with their recorded manifest versions. The final
argument is the running max bump (BumpRule::default() = Notset at the top
call). Returns the collected commits in stream order. -/
def collect_changelog_commits_streaming (current_version : SimpleVersion)
    (rules : List (CommitType × BumpRule)) :
    List CommitWithVersion → BumpRule → List CommitInfo
  | [], _ => []
  | cwv :: rest, maxBump =>
    match cwv.version_at_commit with
    | some w =>
      if w.vge current_version then
        cwv.commit_info ::
          collect_changelog_commits_streaming current_version rules rest
            (maxBump.max (cwv.commit_info.rule rules))
      else if boundary_matches maxBump w then []
      else
        cwv.commit_info ::
          collect_changelog_commits_streaming current_version rules rest
            (maxBump.max (cwv.commit_info.rule rules))
    | none =>
      cwv.commit_info ::
        collect_changelog_commits_streaming current_version rules rest
          (maxBump.max (cwv.commit_info.rule rules))

/-- ChangeLog: the anchor version and the collected commits. -/
structure ChangeLog where
  current_version : SimpleVersion
  changes : List CommitInfo

/-- ChangeLog::next_version: bump the anchor by the fold of max over the
per-commit rules, starting from BumpRule::default() = Notset. -/
def ChangeLog.next_version (cl : ChangeLog) (rules : List (CommitType × BumpRule)) : SimpleVersion :=
  cl.current_version.bump
    (cl.changes.foldl (fun maxBump commit => maxBump.max (commit.rule rules)) BumpRule.Notset)

/-! ## Preamble filter (src/core/git/filtering.rs) -/

/-- ASCII hexadecimal digit (Rust char::is_ascii_hexdigit). -/
def isHexDigitChar (c : Char) : Bool :=
  c.isDigit || ('a' ≤ c && c ≤ 'f') || ('A' ≤ c && c ≤ 'F')

/-- first_word_is_hex: the first whitespace-separated word is non-empty and
all hexadecimal digits. -/
def first_word_is_hex (s : Str) : Bool :=
  let word := (s.dropWhile isWs).takeWhile (fun c => !isWs c)
  word ≠ [] && word.all isHexDigitChar

/-- The standalone trailer markers recognized by is_git_header. -/
def gitTrailers : List Str :=
  ["co-authored-by:".data, "change-id:".data, "reviewed-by:".data]

/-- The plumbing-header markers recognized by is_git_header, each requiring a
hex first token or an angle bracket in the remainder. -/
def gitHeaders : List Str :=
  ["author ".data, "commit ".data, "committer ".data, "date ".data,
   "parent ".data, "tree ".data]

/-- is_git_header. -/
def is_git_header (line : Str) : Bool :=
  let low := lowerStr (trimStr line)
  gitTrailers.any (fun p => p.isPrefixOf low) ||
    gitHeaders.any (fun p =>
      p.isPrefixOf low &&
        (first_word_is_hex (low.drop p.length) || (low.drop p.length).contains '<'))

/-- The stateful line filter of prune_message: the boolean is past_preamble.
Blank lines pass; plumbing headers before the preamble ends are dropped; the
first other line ends the preamble, after which everything passes. -/
def pruneFilter : Bool → List Str → List Str
  | _, [] => []
  | true, l :: rest => l :: pruneFilter true rest
  | false, l :: rest =>
    if trimStr l = [] then l :: pruneFilter false rest
    else if is_git_header l then pruneFilter false rest
    else l :: pruneFilter true rest

/-- prune_message: filter the lines, trim each, join with newlines, trim. -/
def prune_message (message : Str) : Str :=
  trimStr (joinLines ((pruneFilter false (rustLines message)).map trimStr))

/-! ## Commit-message grammar (src/core/conventional_commits/commit.rs; the
pest grammar file commit_message.pest is not among the provided sources, so
the tokenizer below is modelled from the spec grammar of section 4.1) -/

/-- Identifier characters of the spec grammar: letters, digits, hyphen. -/
def isIdentChar (c : Char) : Bool := c.isAlphanum || c = '-'

/-- The header tokens the grammar yields: breaking marker, category token,
optional scope token, subject text. -/
structure HeaderParts where
  breaking : Bool
  ctype : Str
  scopeTok : Option Str
  subject : Str
deriving DecidableEq

/-- Modelled from the spec: after the category and optional scope comes an
optional BANG run, then a colon, a space, and the subject running to the end
of the line. -/
def parseColon (cs : Str) : Option (Bool × Str) :=
  let bangs := cs.takeWhile (fun c => c = '!')
  match cs.dropWhile (fun c => c = '!') with
  | ':' :: ' ' :: subject => some (decide (bangs ≠ []), subject)
  | _ => none

/-- Modelled from the spec: HEADER := [BANG] CATEGORY [ "(" SCOPE ")" ] [BANG]
":" SP SUBJECT_LINE, with the freeform fallback signalled by none. -/
def parseHeaderLine (line : Str) : Option HeaderParts :=
  let bangs1 := line.takeWhile (fun c => c = '!')
  let cs1 := line.dropWhile (fun c => c = '!')
  let ctype := cs1.takeWhile isIdentChar
  let cs2 := cs1.dropWhile isIdentChar
  if ctype = [] then none
  else
    match cs2 with
    | '(' :: cs3 =>
      let sc := cs3.takeWhile isIdentChar
      (match cs3.dropWhile isIdentChar with
      | ')' :: cs4 =>
        if sc = [] then none
        else
          match parseColon cs4 with
          | some (b2, subj) => some ⟨decide (bangs1 ≠ []) || b2, ctype, some sc, subj⟩
          | none => none
      | _ => none)
    | _ =>
      match parseColon cs2 with
      | some (b2, subj) => some ⟨decide (bangs1 ≠ []) || b2, ctype, none, subj⟩
      | none => none

/-- The parse errors of the source (src/core/errors.rs, commit-parse kinds). -/
inductive ConventionalCommitError
  | EmptyCommitMessage
  | InvalidCommitMessage (detail : Str)
  | InvalidCommitType (text : Str)
  | ScopeIsCommitType (text : Str)
  | InvalidParse (text : Str)
deriving DecidableEq

/-- ConventionalCommit::parse_commit_type: CommitType::from, rejecting Unknown. -/
def parse_commit_type (tok : Str) : Except ConventionalCommitError CommitType :=
  let ct := CommitType.fromStr tok
  if ct = CommitType.Unknown then .error (.InvalidCommitType tok) else .ok ct

/-- ConventionalCommit::parse_scope: Custom scopes pass through verbatim,
standard category names are rejected. -/
def parse_scope (tok : Str) : Except ConventionalCommitError (Option Str) :=
  match CommitType.fromStr tok with
  | .Custom value => .ok (some value)
  | .Unknown => .ok (some tok)
  | _ => .error (.ScopeIsCommitType tok)

/-- Strip newlines from both ends (the section text excludes the blank-line
separators around it). -/
def trimNl (s : Str) : Str :=
  ((s.dropWhile (fun c => c = '\n')).reverse.dropWhile (fun c => c = '\n')).reverse

/-- The body-paragraph breaking-change scan of finalize_commit. -/
def bodyBreaking (c : ConventionalCommit) : ConventionalCommit :=
  match c.body with
  | some b =>
    { c with breaking_change := (split2 b).any (fun p => "BREAKING CHANGE".data.isPrefixOf p) }
  | none => c

/-- ConventionalCommit::finalize_commit. -/
def finalize_commit (c : ConventionalCommit) : ConventionalCommit :=
  let c :=
    if c.commit_type = .Unknown ∧ c.scope = none ∧ c.subject ≠ [] then
      { c with commit_type := .NonCompliant }
    else c
  if c.breaking_change then c
  else
    match c.footer with
    | some f =>
      if "BREAKING CHANGE:".data.isPrefixOf f then
        { c with footer := some (trimStartStr (f.drop ("BREAKING CHANGE:".data.length))),
                 breaking_change := true }
      else if "BREAKING CHANGE".data.isPrefixOf f then
        { c with breaking_change := true }
      else bodyBreaking c
    | none => bodyBreaking c

/-- The default-initialized commit record the pair loop of
ConventionalCommit::new starts from. -/
def baseCommit : ConventionalCommit :=
  { commit_type := .Unknown, scope := none, subject := [], footer := none,
    body := none, prefixOpt := none, breaking_change := false }

/-- The header-driven field assignments of the pair loop: commit type, scope,
subject and the shorthand breaking flag, or the freeform fallback that only
sets the subject. -/
def headerFields (headerLine : Str) : Except ConventionalCommitError ConventionalCommit :=
  match parseHeaderLine headerLine with
  | some h =>
    match parse_commit_type h.ctype with
    | .error e => .error e
    | .ok ct =>
      match h.scopeTok with
      | some tok =>
        match parse_scope tok with
        | .error e => .error e
        | .ok sc =>
          .ok { baseCommit with
                commit_type := ct
                scope := sc
                subject := h.subject
                breaking_change := h.breaking }
      | none =>
        .ok { baseCommit with
              commit_type := ct
              subject := h.subject
              breaking_change := h.breaking }
  | none => .ok { baseCommit with subject := headerLine }

/-- The section handler of the pair loop: split the section text on blank
lines, the last block is the footer, the earlier blocks joined form the body,
each assigned only when non-empty. -/
def applySection (c : ConventionalCommit) (sec : Str) : ConventionalCommit :=
  if sec = [] then c
  else
    let blocks := split2 sec
    { c with
      body := if joinNN blocks.dropLast = [] then none else some (joinNN blocks.dropLast),
      footer := if blocks.getLastD [] = [] then none else some (blocks.getLastD []) }

/-- Assembly of the commit record from the grammar tokens: the loop over the
parsed pairs of ConventionalCommit::new, followed by finalize_commit. -/
def buildCommit (headerLine sec : Str) : Except ConventionalCommitError ConventionalCommit :=
  match headerFields headerLine with
  | .error e => .error e
  | .ok c => .ok (finalize_commit (applySection c sec))

/-- Modelled from the spec: MESSAGE := HEADER (BLANKLINE SECTION)*. The first
blank-line-free line is the header; the remainder past the first blank line,
stripped of the surrounding newlines, is the section text handed to
buildCommit. -/
def parseCore (msg : Str) : Except ConventionalCommitError ConventionalCommit :=
  match split2 msg with
  | [] => .error (.InvalidCommitMessage msg)
  | headerLine :: tailParts =>
    if headerLine.contains '\n' then .error (.InvalidCommitMessage msg)
    else buildCommit headerLine (trimNl (joinNN tailParts))

/-- ConventionalCommit::new: reject blank messages, prune the preamble
(falling back to the original message when pruning empties it), then parse. -/
def ConventionalCommit.new (commit_message : Str) :
    Except ConventionalCommitError ConventionalCommit :=
  if trimStr commit_message = [] then .error .EmptyCommitMessage
  else
    let pruned := prune_message commit_message
    parseCore (if pruned = [] then commit_message else pruned)

/-- impl fmt::Display for ConventionalCommit. -/
def ConventionalCommit.format (c : ConventionalCommit) : Str :=
  let scopePart :=
    match c.scope with
    | some s => '(' :: (s ++ [')'])
    | none => []
  let title :=
    match c.commit_type with
    | .NonCompliant => []
    | .Unknown => []
    | .Custom value => value
    | t => t.as_str
  let s := if title = [] then c.subject else title ++ scopePart ++ ": ".data ++ c.subject
  let s :=
    match c.body with
    | some b => s ++ "\n\n".data ++ b
    | none => s
  match c.footer with
  | some f =>
    if c.breaking_change then s ++ "\n\nBREAKING CHANGE: ".data ++ f
    else s ++ "\n\n".data ++ f
  | none =>
    if c.breaking_change then s ++ "\n\nBREAKING CHANGE".data else s

/-! ## Claim-side definitions (written from the claim texts, for comparison) -/

/-- The boundary test as claim C1 words it: a Major pending bump needs minor
and patch zero, Minor needs patch zero, and Patch or lower stops at any
boundary. -/
def claimed_boundary_matches (maxBump : BumpRule) (v : SimpleVersion) : Bool :=
  match maxBump with
  | .Major => v.minor = 0 && v.patch = 0
  | .Minor => v.patch = 0
  | _ => true

/-- The per-commit bump as claim C2 words it: Major when breaking, else the
first match in the given map, else Notset — with no fallback to the defaults. -/
def claimed_rule (ci : CommitInfo) (rules : List (CommitType × BumpRule)) : BumpRule :=
  if ci.commit.breaking_change then BumpRule.Major
  else match_rule rules ci.commit.commit_type

/-- The default table as claim C3 lists it. -/
def claimed_default_table : List (CommitType × BumpRule) :=
  [ (.Feat, .Minor)
  , (.Fix, .Patch)
  , (.Perf, .Patch)
  , (.Refactor, .Patch)
  , (.Revert, .Patch)
  , (.Style, .Patch)
  , (.Chore, .Patch)
  , (.Build, .NoBump)
  , (.Ci, .NoBump)
  , (.Cd, .NoBump)
  , (.Docs, .NoBump)
  , (.Test, .NoBump)
  ]

/-- The plumbing-header marker list as claim C8 gives it: author, committer,
tree, parent, date — without the commit marker the source also recognizes. -/
def claimed_git_headers : List Str :=
  ["author ".data, "committer ".data, "tree ".data, "parent ".data, "date ".data]

/-- The header-detection test as claim C8 words it, over its marker list. -/
def claimed_is_git_header (line : Str) : Bool :=
  let low := lowerStr (trimStr line)
  gitTrailers.any (fun p => p.isPrefixOf low) ||
    claimed_git_headers.any (fun p =>
      p.isPrefixOf low &&
        (first_word_is_hex (low.drop p.length) || (low.drop p.length).contains '<'))

/-- The alias table of the CommitType token match, for the amended claim C9:
each standard variant with every token the source maps to it. -/
def commit_type_aliases : List (List Str × CommitType) :=
  [ (["build".data], .Build)
  , (["chore".data], .Chore)
  , (["ci".data, "continuous integration".data], .Ci)
  , (["cd".data, "deploy".data], .Cd)
  , (["doc".data, "docs".data, "documentation".data], .Docs)
  , (["feat".data, "feature".data, "features".data], .Feat)
  , (["fix".data, "fixes".data], .Fix)
  , (["perf".data, "performance".data], .Perf)
  , (["refactor".data], .Refactor)
  , (["revert".data], .Revert)
  , (["style".data], .Style)
  , (["test".data, "tests".data], .Test)
  ]

/-- Token resolution as the amended claim C9 words it: a standard variant
exactly when the lowercased token sits in that variant's alias set, otherwise
Custom carrying the verbatim token. -/
def alias_lookup (s : Str) : CommitType :=
  match commit_type_aliases.find? (fun p => decide (lowerStr s ∈ p.1)) with
  | some p => p.2
  | none => .Custom s

/-- Version parsing as claim C10 words it: split on dots, parse every
component, accept one to three components filling the rest with zero. -/
def claimed_version_parse (s : Str) : Option SimpleVersion :=
  match (splitChar '.' s).map parseVer with
  | [some a] => some ⟨a, 0, 0⟩
  | [some a, some b] => some ⟨a, b, 0⟩
  | [some a, some b, some c] => some ⟨a, b, c⟩
  | _ => none

/-! ## Proof-side definitions used by the statements below -/

/-- Drop empty chunks from both ends of a chunk list. -/
def stripEnds (ps : List Str) : List Str :=
  (((ps.dropWhile List.isEmpty).reverse).dropWhile List.isEmpty).reverse

/-- Every newline chunk of the string is whitespace-trimmed. -/
def linesTrimmed (s : Str) : Prop := ∀ l ∈ splitChar '\n' s, trimStr l = l

/-- The string neither starts nor ends with a newline. -/
def noNlEdge (s : Str) : Prop := s.head? ≠ some '\n' ∧ s.getLast? ≠ some '\n'

/-! ## Concrete fixtures for counterexamples and witnesses -/

/-- A non-breaking feature commit record. -/
def commitA : ConventionalCommit :=
  { commit_type := .Feat, scope := none, subject := "add x".data, footer := none,
    body := none, prefixOpt := none, breaking_change := false }

/-- A walked commit carrying commitA. -/
def commitInfoA : CommitInfo :=
  { id := "a1".data, files := [], commit := commitA, timestamp := 0 }

/-- A non-breaking documentation commit record. -/
def commitB : ConventionalCommit :=
  { commit_type := .Docs, scope := none, subject := "update readme".data, footer := none,
    body := none, prefixOpt := none, breaking_change := false }

/-- A walked commit carrying commitB. -/
def commitInfoB : CommitInfo :=
  { id := "b1".data, files := [], commit := commitB, timestamp := 0 }

/-- A breaking fix commit record. -/
def commitC : ConventionalCommit :=
  { commit_type := .Fix, scope := none, subject := "drop v1".data, footer := none,
    body := none, prefixOpt := none, breaking_change := true }

/-- A walked commit carrying commitC. -/
def commitInfoC : CommitInfo :=
  { id := "c1".data, files := [], commit := commitC, timestamp := 0 }

/-- The fold of max over a list of bump rules, lowest first. -/
def foldMax (l : List BumpRule) : BumpRule := l.foldr BumpRule.max BumpRule.Notset

/-- The per-marker plumbing-header test of is_git_header, factored out: the
lowered trimmed line starts with the marker and the remainder has a hex first
word or an angle bracket. -/
def header_marker_test (p : Str) (line : Str) : Bool :=
  let low := lowerStr (trimStr line)
  p.isPrefixOf low &&
    (first_word_is_hex (low.drop p.length) || (low.drop p.length).contains '<')

/-- The per-marker trailer test of is_git_header, factored out. -/
def trailer_marker_test (p : Str) (line : Str) : Bool :=
  p.isPrefixOf (lowerStr (trimStr line))

/-- The commit-marker arm that the source's is_git_header has beyond the list
in claim C8: the commit prefix with the same hex-or-angle-bracket requirement. -/
def commit_marker_test (line : Str) : Bool :=
  header_marker_test "commit ".data line

/-- The title string Display prints for a commit type: empty for the two
non-compliant kinds, the verbatim custom text, the standard name otherwise
(the title match of impl fmt::Display, factored out). -/
def formatTitle (c : ConventionalCommit) : Str :=
  match c.commit_type with
  | .NonCompliant => []
  | .Unknown => []
  | .Custom value => value
  | t => t.as_str

/-- The header line Display prints: the bare subject when the title is empty,
otherwise title, optional parenthesized scope, colon, space, subject. -/
def formatHeader (c : ConventionalCommit) : Str :=
  if formatTitle c = [] then c.subject
  else
    formatTitle c ++
      (match c.scope with
       | some s => '(' :: (s ++ [')'])
       | none => []) ++ ": ".data ++ c.subject

/-- The twelve standard commit-type variants. -/
def stdTwelve : List CommitType :=
  [.Build, .Chore, .Ci, .Cd, .Docs, .Feat, .Fix, .Perf, .Refactor, .Revert,
   .Style, .Test]

/-- Every lowercased token the CommitType token match sends to a standard
variant. -/
def allStdAliases : List Str :=
  ["build".data, "chore".data, "ci".data, "continuous integration".data,
   "cd".data, "deploy".data, "doc".data, "docs".data, "documentation".data,
   "feat".data, "feature".data, "features".data, "fix".data, "fixes".data,
   "perf".data, "performance".data, "refactor".data, "revert".data,
   "style".data, "test".data, "tests".data]

/-- The parse of the breaking header feat BANG colon space x: the round-trip
counterexample input. -/
def cexP1 : ConventionalCommit :=
  { commit_type := .Feat, scope := none, subject := "x".data, footer := none,
    body := none, prefixOpt := none, breaking_change := true }

/-- The reparse of the formatted rendering of cexP1: the shorthand breaking
marker comes back as a BREAKING CHANGE footer. -/
def cexP2 : ConventionalCommit :=
  { commit_type := .Feat, scope := none, subject := "x".data,
    footer := some "BREAKING CHANGE".data, body := none, prefixOpt := none,
    breaking_change := true }

/-- A non-breaking parsed commit used to witness the round-trip. -/
def cexP3 : ConventionalCommit :=
  { commit_type := .Fix, scope := none, subject := "y".data, footer := none,
    body := none, prefixOpt := none, breaking_change := false }

/-! # Theorems -/

/-! ## Shared helper lemmas -/

theorem bmax_notset_right (a : BumpRule) : a.max BumpRule.Notset = a := by
  cases a <;> decide

theorem bmax_notset_left (a : BumpRule) : BumpRule.Notset.max a = a := by
  cases a <;> decide

theorem bmax_assoc (a b c : BumpRule) : (a.max b).max c = a.max (b.max c) := by
  cases a <;> cases b <;> cases c <;> decide

theorem bmax_comm (a b : BumpRule) : a.max b = b.max a := by
  cases a <;> cases b <;> decide

theorem bmax_left_comm (a b c : BumpRule) : a.max (b.max c) = b.max (a.max c) := by
  cases a <;> cases b <;> cases c <;> decide

theorem foldl_bmax_eq (l : List BumpRule) :
    ∀ i : BumpRule, l.foldl BumpRule.max i = i.max (foldMax l) := by
  induction l with
  | nil => intro i; simp [foldMax, bmax_notset_right]
  | cons b l ih =>
    intro i
    simp only [List.foldl_cons, foldMax, List.foldr_cons]
    rw [ih (i.max b), bmax_assoc]
    rfl

theorem foldMax_perm {l1 l2 : List BumpRule} (h : l1.Perm l2) : foldMax l1 = foldMax l2 := by
  induction h with
  | nil => rfl
  | cons x _ ih => simp [foldMax, List.foldr_cons] at ih ⊢; rw [ih]
  | swap x y l => simp only [foldMax, List.foldr_cons]; rw [bmax_left_comm]
  | trans _ _ ih1 ih2 => exact ih1.trans ih2

theorem consHead_ne_nil (c : Char) (ps : List Str) : consHead c ps ≠ [] := by
  cases ps <;> simp [consHead]

theorem splitChar_ne_nil (sep : Char) (s : Str) : splitChar sep s ≠ [] := by
  induction s with
  | nil => simp [splitChar]
  | cons c rest ih =>
    simp only [splitChar]
    by_cases h : c = sep
    · simp [h]
    · simp only [h, if_false]
      exact consHead_ne_nil c _

theorem match_rule_cons_hit (c : CommitType) (b : BumpRule)
    (rest : List (CommitType × BumpRule)) : match_rule ((c, b) :: rest) c = b := by
  simp [match_rule, List.find?]

theorem match_rule_cons_miss (c d : CommitType) (b : BumpRule)
    (rest : List (CommitType × BumpRule)) (hd : d ≠ c) :
    match_rule ((c, b) :: rest) d = match_rule rest d := by
  simp only [match_rule, List.find?]
  have : (decide ((c, b).1 = d)) = false := by
    simp only [decide_eq_false_iff_not]
    exact fun h => hd h.symm
  simp [this]

theorem match_rule_append_skip (xs ys : List (CommitType × BumpRule)) (c d : CommitType)
    (b : BumpRule) (hd : d ≠ c) :
    match_rule (xs ++ (c, b) :: ys) d = match_rule (xs ++ ys) d := by
  induction xs with
  | nil => simpa using match_rule_cons_miss c d b ys hd
  | cons x xs ih =>
    rcases x with ⟨cx, bx⟩
    by_cases hx : d = cx
    · subst hx
      simp [match_rule_cons_hit]
    · simp only [List.cons_append]
      rw [match_rule_cons_miss cx d bx _ hx, match_rule_cons_miss cx d bx _ hx, ih]

/-! ## C5 -/

/-- C5: for every version, bump(Major) increments major and zeroes minor and
patch, bump(Minor) increments minor and zeroes patch, bump(Patch) increments
patch, and bump(NoBump) and bump(Notset) are the identity. -/
theorem C5_bump_arithmetic (v : SimpleVersion) :
    v.bump .Major = ⟨v.major + 1, 0, 0⟩ ∧
    v.bump .Minor = ⟨v.major, v.minor + 1, 0⟩ ∧
    v.bump .Patch = ⟨v.major, v.minor, v.patch + 1⟩ ∧
    v.bump .NoBump = v ∧
    v.bump .Notset = v :=
  ⟨rfl, rfl, rfl, rfl, rfl⟩

/-! ## C2 -/

/-- C2 counterexample: with an empty rule list, a non-breaking feat commit
resolves to Minor through the built-in default table, not to Notset as the
claim requires; the source's CommitInfo::rule falls back to
build_default_rules when the given list is empty. -/
theorem C2_empty_rules_counterexample :
    CommitInfo.rule commitInfoA [] = BumpRule.Minor ∧
    claimed_rule commitInfoA [] = BumpRule.Notset ∧
    CommitInfo.rule commitInfoA [] ≠ claimed_rule commitInfoA [] := by decide

/-- C2 amended: the per-commit bump is Major whenever the parsed commit is
breaking; otherwise, for a non-empty rule list it is the bump of the first
matching pair (Notset when none matches), and for an empty rule list the
built-in default table is consulted instead. -/
theorem C2_per_commit_bump (ci : CommitInfo) :
    (∀ r rs, CommitInfo.rule ci (r :: rs) = claimed_rule ci (r :: rs)) ∧
    CommitInfo.rule ci [] =
      (if ci.commit.breaking_change then BumpRule.Major
       else match_rule build_default_rules ci.commit.commit_type) := by
  constructor
  · intro r rs
    simp [CommitInfo.rule, claimed_rule, List.isEmpty]
  · simp [CommitInfo.rule, List.isEmpty]

/-! ## C3 -/

/-- C3: the composed rule map is CLI rules, then configuration rules, then
exactly the built-in default table (as a permutation of the claim's listing);
lookup returns the first matching pair; and inserting a CLI rule for category
c leaves the resolved bump of every other category unchanged. -/
theorem C3_rule_composition (cli1 cli2 config : List (CommitType × BumpRule))
    (c : CommitType) (b : BumpRule) (d : CommitType) (hd : d ≠ c) :
    composed_rules (cli1 ++ (c, b) :: cli2) config =
      (cli1 ++ (c, b) :: cli2) ++ config ++ build_default_rules ∧
    build_default_rules.Perm claimed_default_table ∧
    (∀ rules r, match_rule ((d, r) :: rules) d = r) ∧
    match_rule (composed_rules (cli1 ++ (c, b) :: cli2) config) d =
      match_rule (composed_rules (cli1 ++ cli2) config) d := by
  refine ⟨rfl, by decide, fun rules r => match_rule_cons_hit d r rules, ?_⟩
  simp only [composed_rules, List.append_assoc, List.cons_append]
  exact match_rule_append_skip cli1 ((cli2 ++ (config ++ build_default_rules))) c d b hd

/-- Witness for C3 at a concrete instantiation: a CLI rule for Chore does not
change the resolved bump for Docs. -/
theorem C3_rule_composition_witness :
    match_rule (composed_rules ([] ++ (CommitType.Chore, BumpRule.Minor) :: []) [])
        CommitType.Docs =
      match_rule (composed_rules ([] ++ []) []) CommitType.Docs :=
  (C3_rule_composition [] [] [] CommitType.Chore BumpRule.Minor CommitType.Docs
    (by decide)).2.2.2

/-! ## C4 -/

/-- C4: the next version is the anchor bumped by the fold of max over the
per-commit bumps starting from Notset; max on BumpRule is associative and
commutative with Notset as least element under the declared order; and the
next version is invariant under any permutation of the collected commits. -/
theorem C4_next_version_permutation (V : SimpleVersion)
    (rules : List (CommitType × BumpRule)) (l1 l2 : List CommitInfo) (h : l1.Perm l2) :
    ChangeLog.next_version ⟨V, l1⟩ rules =
      V.bump (foldMax (l1.map (fun ci => ci.rule rules))) ∧
    (∀ a b c : BumpRule, (a.max b).max c = a.max (b.max c)) ∧
    (∀ a b : BumpRule, a.max b = b.max a) ∧
    (∀ a : BumpRule, BumpRule.Notset.max a = a) ∧
    (BumpRule.Notset.blt .NoBump ∧ BumpRule.NoBump.blt .Patch ∧
      BumpRule.Patch.blt .Minor ∧ BumpRule.Minor.blt .Major) ∧
    ChangeLog.next_version ⟨V, l1⟩ rules = ChangeLog.next_version ⟨V, l2⟩ rules := by
  have key : ∀ l : List CommitInfo,
      ChangeLog.next_version ⟨V, l⟩ rules =
        V.bump (foldMax (l.map (fun ci => ci.rule rules))) := by
    intro l
    simp only [ChangeLog.next_version]
    rw [← List.foldl_map (fun ci => ci.rule rules) BumpRule.max l BumpRule.Notset]
    rw [foldl_bmax_eq, bmax_notset_left]
  refine ⟨key l1, bmax_assoc, bmax_comm, fun a => by cases a <;> decide,
    ⟨by decide, by decide, by decide, by decide⟩, ?_⟩
  rw [key l1, key l2, foldMax_perm (h.map (fun ci => ci.rule rules))]

/-- Witness for C4 at a concrete permutation: swapping a feat commit and a
breaking fix commit leaves the next version unchanged. -/
theorem C4_next_version_permutation_witness :
    ChangeLog.next_version ⟨⟨1, 2, 3⟩, [commitInfoA, commitInfoC]⟩ [] =
      ChangeLog.next_version ⟨⟨1, 2, 3⟩, [commitInfoC, commitInfoA]⟩ [] :=
  (C4_next_version_permutation ⟨1, 2, 3⟩ [] [commitInfoA, commitInfoC]
    [commitInfoC, commitInfoA] (List.Perm.swap _ _ _)).2.2.2.2.2

/-! ## C1 -/

/-- C1 counterexample: with the running max bump still Notset (which is lower
than Patch), a boundary commit whose recorded version 0.0.1 is below the
current version 0.1.0 is collected and the walk continues, while the claim's
clause that a max bump of Patch or lower stops at any boundary demands that
the walk terminate without collecting it. -/
theorem C1_patch_or_lower_counterexample :
    SimpleVersion.vlt ⟨0, 0, 1⟩ ⟨0, 1, 0⟩ = true ∧
    claimed_boundary_matches BumpRule.Notset ⟨0, 0, 1⟩ = true ∧
    boundary_matches BumpRule.Notset ⟨0, 0, 1⟩ = false ∧
    collect_changelog_commits_streaming ⟨0, 1, 0⟩ []
        [⟨commitInfoB, some ⟨0, 0, 1⟩⟩] BumpRule.Notset = [commitInfoB] := by
  decide

/-- C1 amended: at a boundary commit with recorded version W below the current
version, the walk terminates without collecting exactly when the boundary
matches the running max bump, where a Major max needs W.minor = 0 and
W.patch = 0, a Minor max needs W.patch = 0, a Patch max stops at any boundary,
and a max of NoBump or Notset never stops (the commit is collected and the
walk continues, as at every non-matching boundary); every boundary commit with
W at or above the current version is collected and the walk continues. -/
theorem C1_collector_boundary (V : SimpleVersion) (rules : List (CommitType × BumpRule))
    (maxBump : BumpRule) (cwv : CommitWithVersion) (rest : List CommitWithVersion)
    (w : SimpleVersion) (hw : cwv.version_at_commit = some w) :
    (w.vge V = true →
      collect_changelog_commits_streaming V rules (cwv :: rest) maxBump =
        cwv.commit_info ::
          collect_changelog_commits_streaming V rules rest
            (maxBump.max (cwv.commit_info.rule rules))) ∧
    (w.vge V = false → boundary_matches maxBump w = true →
      collect_changelog_commits_streaming V rules (cwv :: rest) maxBump = []) ∧
    (w.vge V = false → boundary_matches maxBump w = false →
      collect_changelog_commits_streaming V rules (cwv :: rest) maxBump =
        cwv.commit_info ::
          collect_changelog_commits_streaming V rules rest
            (maxBump.max (cwv.commit_info.rule rules))) ∧
    boundary_matches .Major w = (decide (w.minor = 0) && decide (w.patch = 0)) ∧
    boundary_matches .Minor w = decide (w.patch = 0) ∧
    boundary_matches .Patch w = true ∧
    boundary_matches .NoBump w = false ∧
    boundary_matches .Notset w = false ∧
    should_stop_collecting ⟨V, maxBump, []⟩ cwv =
      (!(w.vge V) && boundary_matches maxBump w) := by
  have hbM : boundary_matches .Major w = (decide (w.minor = 0) && decide (w.patch = 0)) := by
    rcases w with ⟨ma, mi, pa⟩
    cases mi <;> cases pa <;> simp [boundary_matches]
  have hbm : boundary_matches .Minor w = decide (w.patch = 0) := by
    rcases w with ⟨ma, mi, pa⟩
    cases mi <;> cases pa <;> simp [boundary_matches]
  have hbp : boundary_matches .Patch w = true := by
    rcases w with ⟨ma, mi, pa⟩
    cases mi <;> cases pa <;> simp [boundary_matches]
  have hbn : boundary_matches .NoBump w = false := by
    rcases w with ⟨ma, mi, pa⟩
    cases mi <;> cases pa <;> simp [boundary_matches]
  have hbo : boundary_matches .Notset w = false := by
    rcases w with ⟨ma, mi, pa⟩
    cases mi <;> cases pa <;> simp [boundary_matches]
  refine ⟨?_, ?_, ?_, hbM, hbm, hbp, hbn, hbo, ?_⟩
  · intro hge
    simp [collect_changelog_commits_streaming, hw, hge]
  · intro hge hb
    simp [collect_changelog_commits_streaming, hw, hge, hb]
  · intro hge hb
    simp [collect_changelog_commits_streaming, hw, hge, hb]
  · cases hge : w.vge V <;> simp [should_stop_collecting, hw, hge]

/-- Witness for C1 at a concrete boundary: with a pending Patch bump, a
boundary at 0.1.2 below current 1.0.0 terminates the walk with nothing
collected past it. -/
theorem C1_collector_boundary_witness :
    collect_changelog_commits_streaming ⟨1, 0, 0⟩ []
        [⟨commitInfoB, some ⟨0, 1, 2⟩⟩] BumpRule.Patch = [] :=
  (C1_collector_boundary ⟨1, 0, 0⟩ [] .Patch ⟨commitInfoB, some ⟨0, 1, 2⟩⟩ []
    ⟨0, 1, 2⟩ rfl).2.1 (by decide) (by decide)

/-! ## C10 -/

/-- C10: version parsing accepts one, two or three dot-separated components,
filling omitted minor and patch with zero, errs exactly when there are four or
more components or some component fails the integer grammar, and the
infallible conversion maps every failing string to 0.0.0. -/
theorem C10_version_parsing (s : Str) :
    SimpleVersion.from_str s = claimed_version_parse s ∧
    SimpleVersion.from_str "1".data = some ⟨1, 0, 0⟩ ∧
    SimpleVersion.from_str "1.2".data = some ⟨1, 2, 0⟩ ∧
    ((SimpleVersion.from_str s).isNone ↔
      4 ≤ (splitChar '.' s).length ∨ ∃ p ∈ splitChar '.' s, parseVer p = none) ∧
    SimpleVersion.from_str_infallible s = (SimpleVersion.from_str s).getD ⟨0, 0, 0⟩ := by
  have hne : splitChar '.' s ≠ [] := splitChar_ne_nil '.' s
  refine ⟨?_, by decide, by decide, ?_, ?_⟩
  · simp only [SimpleVersion.from_str, claimed_version_parse]
    rcases hp : splitChar '.' s with _ | ⟨a, _ | ⟨b, _ | ⟨c, _ | ⟨d, l⟩⟩⟩⟩
    · rfl
    · rcases ha : parseVer a with _ | x <;> simp [ha]
    · rcases ha : parseVer a with _ | x <;> rcases hb : parseVer b with _ | y <;>
        simp [ha, hb]
    · rcases ha : parseVer a with _ | x <;> rcases hb : parseVer b with _ | y <;>
        rcases hc : parseVer c with _ | z <;> simp [ha, hb, hc]
    · simp
  · simp only [SimpleVersion.from_str]
    rcases hp : splitChar '.' s with _ | ⟨a, _ | ⟨b, _ | ⟨c, _ | ⟨d, l⟩⟩⟩⟩
    · exact absurd hp hne
    · rcases ha : parseVer a with _ | x <;> simp [ha]
    · rcases ha : parseVer a with _ | x <;> rcases hb : parseVer b with _ | y <;>
        simp [ha, hb]
    · rcases ha : parseVer a with _ | x <;> rcases hb : parseVer b with _ | y <;>
        rcases hc : parseVer c with _ | z <;> simp [ha, hb, hc]
    · simp
  · simp [SimpleVersion.from_str_infallible]
    rcases SimpleVersion.from_str s with _ | v <;> simp

theorem alias_lookup_pos (s : Str) (p : List Str × CommitType)
    (h : commit_type_aliases.find? (fun q => decide (lowerStr s ∈ q.1)) = some p) :
    alias_lookup s = p.2 := by
  rw [alias_lookup, h]

/-! ## C9 -/

/-- C9 counterexample: the token feature resolves to the standard Feat variant
although its lowercase form differs from the variant textual form feat, where
the claim requires every such token to yield Custom carrying the verbatim
text. -/
theorem C9_alias_counterexample :
    CommitType.fromStr "feature".data = CommitType.Feat ∧
    lowerStr "feature".data ≠ CommitType.as_str CommitType.Feat ∧
    CommitType.fromStr "feature".data ≠ CommitType.Custom "feature".data := by
  decide

set_option maxHeartbeats 4000000 in
/-- C9 amended: a category token resolves to a standard variant exactly when
its lowercase form lies in that variant's alias set (build; chore; ci or
continuous integration; cd or deploy; doc, docs or documentation; feat,
feature or features; fix or fixes; perf or performance; refactor; revert;
style; test or tests); every other token yields Custom carrying the verbatim
text. -/
theorem C9_token_resolution (s : Str) : CommitType.fromStr s = alias_lookup s := by
  simp only [CommitType.fromStr]
  by_cases h1 : lowerStr s = "build".data
  · rw [if_pos h1]
    exact (alias_lookup_pos s (["build".data], .Build) (by rw [h1]; decide)).symm
  rw [if_neg h1]
  by_cases h2 : lowerStr s = "chore".data
  · rw [if_pos h2]
    exact (alias_lookup_pos s (["chore".data], .Chore) (by rw [h2]; decide)).symm
  rw [if_neg h2]
  by_cases h3 : lowerStr s = "ci".data ∨ lowerStr s = "continuous integration".data
  · rw [if_pos h3]
    rcases h3 with h | h <;>
      exact (alias_lookup_pos s (["ci".data, "continuous integration".data], .Ci) (by rw [h]; decide)).symm
  rw [if_neg h3]
  by_cases h4 : lowerStr s = "cd".data ∨ lowerStr s = "deploy".data
  · rw [if_pos h4]
    rcases h4 with h | h <;>
      exact (alias_lookup_pos s (["cd".data, "deploy".data], .Cd) (by rw [h]; decide)).symm
  rw [if_neg h4]
  by_cases h5 : lowerStr s = "doc".data ∨ lowerStr s = "docs".data ∨ lowerStr s = "documentation".data
  · rw [if_pos h5]
    rcases h5 with h | h | h <;>
      exact (alias_lookup_pos s (["doc".data, "docs".data, "documentation".data], .Docs) (by rw [h]; decide)).symm
  rw [if_neg h5]
  by_cases h6 : lowerStr s = "feat".data ∨ lowerStr s = "feature".data ∨ lowerStr s = "features".data
  · rw [if_pos h6]
    rcases h6 with h | h | h <;>
      exact (alias_lookup_pos s (["feat".data, "feature".data, "features".data], .Feat) (by rw [h]; decide)).symm
  rw [if_neg h6]
  by_cases h7 : lowerStr s = "fix".data ∨ lowerStr s = "fixes".data
  · rw [if_pos h7]
    rcases h7 with h | h <;>
      exact (alias_lookup_pos s (["fix".data, "fixes".data], .Fix) (by rw [h]; decide)).symm
  rw [if_neg h7]
  by_cases h8 : lowerStr s = "perf".data ∨ lowerStr s = "performance".data
  · rw [if_pos h8]
    rcases h8 with h | h <;>
      exact (alias_lookup_pos s (["perf".data, "performance".data], .Perf) (by rw [h]; decide)).symm
  rw [if_neg h8]
  by_cases h9 : lowerStr s = "refactor".data
  · rw [if_pos h9]
    exact (alias_lookup_pos s (["refactor".data], .Refactor) (by rw [h9]; decide)).symm
  rw [if_neg h9]
  by_cases h10 : lowerStr s = "revert".data
  · rw [if_pos h10]
    exact (alias_lookup_pos s (["revert".data], .Revert) (by rw [h10]; decide)).symm
  rw [if_neg h10]
  by_cases h11 : lowerStr s = "style".data
  · rw [if_pos h11]
    exact (alias_lookup_pos s (["style".data], .Style) (by rw [h11]; decide)).symm
  rw [if_neg h11]
  by_cases h12 : lowerStr s = "test".data ∨ lowerStr s = "tests".data
  · rw [if_pos h12]
    rcases h12 with h | h <;>
      exact (alias_lookup_pos s (["test".data, "tests".data], .Test) (by rw [h]; decide)).symm
  rw [if_neg h12]
  rw [alias_lookup]
  have hnone :
      List.find? (fun p => decide (lowerStr s ∈ p.1)) commit_type_aliases = none := by
    rw [List.find?_eq_none]
    intro p hp
    simp only [commit_type_aliases, List.mem_cons, List.not_mem_nil, or_false] at hp
    rcases hp with rfl | rfl | rfl | rfl | rfl | rfl | rfl | rfl | rfl | rfl | rfl | rfl <;>
      simp_all [List.mem_cons]
  rw [hnone]

/-! ## C8 -/

set_option maxHeartbeats 2000000 in
/-- C8 counterexample: a line starting with the commit marker followed by a
hex token is recognized and removed by the source filter, while the claim's
marker list (author, committer, tree, parent, date plus the trailers) does not
name commit and so requires the line to be kept. -/
theorem C8_commit_marker_counterexample :
    is_git_header "commit abc123def456".data = true ∧
    claimed_is_git_header "commit abc123def456".data = false ∧
    prune_message "commit abc123def456\n\nchore: test the commit".data =
      "chore: test the commit".data := by
  decide

set_option maxHeartbeats 4000000 in
/-- C8 amended: a leading line is removed only when it is detected as a
plumbing header, which holds exactly when it matches the claim's test or
additionally carries the commit marker with the same hex-or-angle-bracket
requirement; blank lines are kept, subjects that fail the test (including
Commit to quality and the Merge subjects) are kept, and once a non-header
non-blank line has been seen every later line is kept. -/
theorem C8_preamble_filter (line : Str) (ls rest : List Str) :
    (is_git_header line = true ↔
      (claimed_is_git_header line = true ∨ commit_marker_test line = true)) ∧
    pruneFilter true ls = ls ∧
    (trimStr line = [] → pruneFilter false (line :: rest) = line :: pruneFilter false rest) ∧
    (trimStr line ≠ [] → is_git_header line = true →
      pruneFilter false (line :: rest) = pruneFilter false rest) ∧
    (trimStr line ≠ [] → is_git_header line = false →
      pruneFilter false (line :: rest) = line :: rest) ∧
    prune_message "Commit to quality".data = "Commit to quality".data ∧
    prune_message "Merge branch feature into main".data =
      "Merge branch feature into main".data ∧
    prune_message "Merge pull request #123 from user/branch".data =
      "Merge pull request #123 from user/branch".data := by
  have hpast : ∀ l : List Str, pruneFilter true l = l := by
    intro l
    induction l with
    | nil => rfl
    | cons x xs ih => simp [pruneFilter, ih]
  refine ⟨?_, hpast ls, ?_, ?_, ?_, by decide, by decide, by decide⟩
  · have hsrc : is_git_header line =
        (trailer_marker_test "co-authored-by:".data line ||
          (trailer_marker_test "change-id:".data line ||
            (trailer_marker_test "reviewed-by:".data line || false)) ||
         (header_marker_test "author ".data line ||
          (header_marker_test "commit ".data line ||
           (header_marker_test "committer ".data line ||
            (header_marker_test "date ".data line ||
             (header_marker_test "parent ".data line ||
              (header_marker_test "tree ".data line || false))))))) := rfl
    have hcl : claimed_is_git_header line =
        (trailer_marker_test "co-authored-by:".data line ||
          (trailer_marker_test "change-id:".data line ||
            (trailer_marker_test "reviewed-by:".data line || false)) ||
         (header_marker_test "author ".data line ||
          (header_marker_test "committer ".data line ||
           (header_marker_test "tree ".data line ||
            (header_marker_test "parent ".data line ||
             (header_marker_test "date ".data line || false)))))) := rfl
    have hcm : commit_marker_test line = header_marker_test "commit ".data line := rfl
    rw [hsrc, hcl, hcm]
    generalize trailer_marker_test "co-authored-by:".data line = a1
    generalize trailer_marker_test "change-id:".data line = a2
    generalize trailer_marker_test "reviewed-by:".data line = a3
    generalize header_marker_test "author ".data line = b1
    generalize header_marker_test "commit ".data line = b2
    generalize header_marker_test "committer ".data line = b3
    generalize header_marker_test "date ".data line = b4
    generalize header_marker_test "parent ".data line = b5
    generalize header_marker_test "tree ".data line = b6
    revert a1 a2 a3 b1 b2 b3 b4 b5 b6
    decide
  · intro hb
    simp [pruneFilter, hb]
  · intro hb hh
    simp [pruneFilter, hb, hh]
  · intro hb hh
    simp [pruneFilter, hb, hh, hpast rest]

/-- Witness for C8 at a concrete header line: a tree line with a hex token is
removed from the front of the message. -/
theorem C8_preamble_filter_witness :
    pruneFilter false ["tree 1a2b3c".data, "feat: x".data] =
      pruneFilter false ["feat: x".data] :=
  (C8_preamble_filter "tree 1a2b3c".data [] ["feat: x".data]).2.2.2.1
    (by decide) (by decide)


/-! ## C7 -/

theorem trimStr_eq_nil_iff (s : Str) : trimStr s = [] ↔ ∀ c ∈ s, isWs c = true := by
  constructor
  · intro h c hc
    have h1 : (s.dropWhile isWs).reverse.dropWhile isWs = [] := by
      simpa [trimStr, List.reverse_eq_nil_iff] using h
    have h2 : ∀ x ∈ s.dropWhile isWs, isWs x = true := by
      intro x hx
      exact List.dropWhile_eq_nil_iff.mp h1 x (List.mem_reverse.mpr hx)
    rcases List.mem_append.mp
        ((List.takeWhile_append_dropWhile (p := isWs) (l := s)) ▸ hc) with h3 | h3
    · exact List.mem_takeWhile_imp h3
    · exact h2 c h3
  · intro h
    have h1 : s.dropWhile isWs = [] := List.dropWhile_eq_nil_iff.mpr fun x hx => h x hx
    simp [trimStr, h1]

theorem mem_of_mem_splitChar (sep : Char) (s : Str) :
    ∀ p ∈ splitChar sep s, ∀ a ∈ p, a ∈ s := by
  induction s with
  | nil =>
    intro p hp a ha
    simp only [splitChar, List.mem_singleton] at hp
    subst hp
    simp at ha
  | cons c rest ih =>
    intro p hp a ha
    simp only [splitChar] at hp
    by_cases h : c = sep
    · rw [if_pos h] at hp
      rcases List.mem_cons.mp hp with rfl | hp2
      · simp at ha
      · exact List.mem_cons_of_mem _ (ih p hp2 a ha)
    · rw [if_neg h] at hp
      rcases hsr : splitChar sep rest with _ | ⟨q, qs⟩
      · exact absurd hsr (splitChar_ne_nil sep rest)
      · rw [hsr] at hp
        simp only [consHead] at hp
        rcases List.mem_cons.mp hp with rfl | hp2
        · rcases List.mem_cons.mp ha with rfl | ha2
          · exact List.mem_cons_self _ _
          · exact List.mem_cons_of_mem _
              (ih q (hsr ▸ List.mem_cons_self q qs) a ha2)
        · exact List.mem_cons_of_mem _
            (ih p (hsr ▸ List.mem_cons_of_mem q hp2) a ha)

theorem mem_of_mem_rustLines (s : Str) : ∀ l ∈ rustLines s, ∀ a ∈ l, a ∈ s := by
  intro l hl a ha
  unfold rustLines at hl
  by_cases hs : s = []
  · rw [if_pos hs] at hl
    simp at hl
  · rw [if_neg hs] at hl
    by_cases hlast : (splitChar '\n' s).getLast? = some []
    · rw [if_pos hlast] at hl
      exact mem_of_mem_splitChar '\n' s l (List.dropLast_subset _ hl) a ha
    · rw [if_neg hlast] at hl
      exact mem_of_mem_splitChar '\n' s l hl a ha

theorem mem_joinLines (ls : List Str) :
    ∀ a ∈ joinLines ls, a = '\n' ∨ ∃ l ∈ ls, a ∈ l := by
  induction ls with
  | nil => intro a ha; simp [joinLines] at ha
  | cons l rest ih =>
    intro a ha
    cases rest with
    | nil =>
      refine Or.inr ⟨l, List.mem_cons_self _ _, ?_⟩
      simpa [joinLines] using ha
    | cons m ms =>
      simp only [joinLines] at ha
      rcases List.mem_append.mp ha with h1 | h2
      · exact Or.inr ⟨l, List.mem_cons_self _ _, h1⟩
      · rcases List.mem_cons.mp h2 with rfl | h3
        · exact Or.inl rfl
        · rcases ih a h3 with h | ⟨l2, hl2, hal2⟩
          · exact Or.inl h
          · exact Or.inr ⟨l2, List.mem_cons_of_mem _ hl2, hal2⟩

theorem pruneFilter_all_blank (ls : List Str) (h : ∀ l ∈ ls, trimStr l = []) :
    pruneFilter false ls = ls := by
  induction ls with
  | nil => rfl
  | cons l rest ih =>
    have hb := h l (List.mem_cons_self _ _)
    simp [pruneFilter, hb, ih fun x hx => h x (List.mem_cons_of_mem _ hx)]

theorem prune_message_of_blank (m : Str) (h : trimStr m = []) : prune_message m = [] := by
  have hws : ∀ c ∈ m, isWs c = true := (trimStr_eq_nil_iff m).mp h
  have hlines : ∀ l ∈ rustLines m, trimStr l = [] := fun l hl =>
    (trimStr_eq_nil_iff l).mpr fun c hc => hws c (mem_of_mem_rustLines m l hl c hc)
  have hmapped : ∀ l ∈ (rustLines m).map trimStr, l = [] := by
    intro l hl
    rcases List.mem_map.mp hl with ⟨l0, hl0, rfl⟩
    exact hlines l0 hl0
  rw [prune_message, pruneFilter_all_blank _ hlines]
  apply (trimStr_eq_nil_iff _).mpr
  intro c hc
  rcases mem_joinLines _ c hc with rfl | ⟨l, hl, hcl⟩
  · decide
  · rw [hmapped l hl] at hcl
    simp at hcl

theorem parse_commit_type_error (tok : Str) (e : ConventionalCommitError)
    (h : parse_commit_type tok = .error e) : e = .InvalidCommitType tok := by
  unfold parse_commit_type at h
  by_cases hc : CommitType.fromStr tok = CommitType.Unknown
  · rw [if_pos hc] at h
    simpa using h.symm
  · rw [if_neg hc] at h
    simp at h

theorem parse_scope_error (tok : Str) (e : ConventionalCommitError)
    (h : parse_scope tok = .error e) : e = .ScopeIsCommitType tok := by
  unfold parse_scope at h
  rcases hft : CommitType.fromStr tok with
    _ | _ | _ | _ | _ | _ | _ | _ | _ | _ | _ | _ | v | _ | _ <;>
    rw [hft] at h <;> simp_all

theorem headerFields_error (hd : Str) (e : ConventionalCommitError)
    (h : headerFields hd = .error e) :
    (∃ t, e = .InvalidCommitType t) ∨ (∃ t, e = .ScopeIsCommitType t) := by
  unfold headerFields at h
  rcases hph : parseHeaderLine hd with _ | hp
  · rw [hph] at h
    simp at h
  · rw [hph] at h
    dsimp only at h
    rcases hct : parse_commit_type hp.ctype with e2 | ct
    · rw [hct] at h
      dsimp only at h
      simp only [Except.error.injEq] at h
      subst h
      exact Or.inl ⟨_, parse_commit_type_error _ _ hct⟩
    · rw [hct] at h
      dsimp only at h
      rcases hsc : hp.scopeTok with _ | tok
      · rw [hsc] at h
        simp at h
      · rw [hsc] at h
        dsimp only at h
        rcases hps : parse_scope tok with e3 | sc
        · rw [hps] at h
          dsimp only at h
          simp only [Except.error.injEq] at h
          subst h
          exact Or.inr ⟨_, parse_scope_error _ _ hps⟩
        · rw [hps] at h
          simp at h

theorem buildCommit_ne_empty (hd s : Str) :
    buildCommit hd s ≠ Except.error ConventionalCommitError.EmptyCommitMessage := by
  intro hcon
  unfold buildCommit at hcon
  rcases hhf : headerFields hd with e | c <;> rw [hhf] at hcon
  · simp only [Except.error.injEq] at hcon
    subst hcon
    rcases headerFields_error hd _ hhf with ⟨t, ht⟩ | ⟨t, ht⟩ <;> simp at ht
  · simp at hcon

theorem parseCore_ne_empty (x : Str) :
    parseCore x ≠ Except.error ConventionalCommitError.EmptyCommitMessage := by
  intro hcon
  unfold parseCore at hcon
  rcases hsp : split2 x with _ | ⟨hd, tl⟩ <;> rw [hsp] at hcon
  · simp at hcon
  · dsimp only at hcon
    by_cases hnl : hd.contains '\n' = true
    · rw [if_pos hnl] at hcon
      simp at hcon
    · rw [if_neg hnl] at hcon
      exact buildCommit_ne_empty _ _ hcon

set_option maxHeartbeats 4000000 in
/-- C7 counterexample: a message consisting of a single author header line has
an empty filtered form, yet parsing does not raise EmptyMessage — the source
falls back to the unfiltered message and parses it as non-compliant. -/
theorem C7_filtered_empty_counterexample :
    prune_message "author Jane <jane@ex.com> deadbeef".data = [] ∧
    ConventionalCommit.new "author Jane <jane@ex.com> deadbeef".data =
      Except.ok { commit_type := .NonCompliant, scope := none,
                  subject := "author Jane <jane@ex.com> deadbeef".data, footer := none,
                  body := none, prefixOpt := none, breaking_change := false } ∧
    ConventionalCommit.new "author Jane <jane@ex.com> deadbeef".data ≠
      Except.error ConventionalCommitError.EmptyCommitMessage := by
  have hok : ConventionalCommit.new "author Jane <jane@ex.com> deadbeef".data =
      Except.ok { commit_type := .NonCompliant, scope := none,
                  subject := "author Jane <jane@ex.com> deadbeef".data, footer := none,
                  body := none, prefixOpt := none, breaking_change := false } := by
    rfl
  refine ⟨by decide, hok, ?_⟩
  rw [hok]
  exact fun h => Except.noConfusion h

/-- C7 amended: parsing fails with EmptyMessage exactly when the raw message
trims to nothing; when the filtered form is empty but the raw message is not
blank, the original message is parsed instead, so a non-empty filtered form
still never yields EmptyMessage. -/
theorem C7_empty_message (m : Str) :
    (ConventionalCommit.new m = .error .EmptyCommitMessage ↔ trimStr m = []) ∧
    (prune_message m ≠ [] →
      ConventionalCommit.new m ≠ Except.error ConventionalCommitError.EmptyCommitMessage) := by
  have hmain : ConventionalCommit.new m = .error .EmptyCommitMessage ↔ trimStr m = [] := by
    constructor
    · intro h
      by_contra hne
      rw [ConventionalCommit.new, if_neg hne] at h
      exact parseCore_ne_empty _ h
    · intro h
      rw [ConventionalCommit.new, if_pos h]
  exact ⟨hmain, fun hp hcon => hp (prune_message_of_blank m (hmain.mp hcon))⟩

/-- Witness for C7 at a concrete message with a non-empty filtered form. -/
theorem C7_empty_message_witness :
    ConventionalCommit.new "feat: x".data ≠
      Except.error ConventionalCommitError.EmptyCommitMessage :=
  (C7_empty_message "feat: x".data).2 (by decide)



/-! ## String infrastructure for the round-trip claim -/

theorem split2_cons_of_ne (c : Char) (rest : Str) (h : c ≠ '\n') :
    split2 (c :: rest) = consHead c (split2 rest) := by
  rw [split2.eq_def]
  split
  · rename_i heq
    exact absurd (List.cons.inj heq).1 h
  · rename_i c2 rest2 hg heq
    injection heq with h1 h2
    subst h1; subst h2
    rfl
  · rename_i heq
    simp at heq

theorem split2_cons_nl (rest : Str) (h : rest.head? ≠ some '\n') :
    split2 ('\n' :: rest) = consHead '\n' (split2 rest) := by
  rw [split2.eq_def]
  split
  · rename_i heq
    rw [(List.cons.inj heq).2] at h
    simp at h
  · rename_i c2 rest2 hg heq
    injection heq with h1 h2
    subst h1; subst h2
    rfl
  · rename_i heq
    simp at heq

theorem split2_cons_guard (c : Char) (rest : Str)
    (h : ∀ r1, c = '\n' → rest = '\n' :: r1 → False) :
    split2 (c :: rest) = consHead c (split2 rest) := by
  by_cases hc : c = '\n'
  · subst hc
    apply split2_cons_nl
    intro hh
    rcases rest with _ | ⟨r, rs⟩
    · simp at hh
    · simp at hh
      exact h rs rfl (by rw [hh])
  · exact split2_cons_of_ne c rest hc

theorem split2_ne_nil (s : Str) : split2 s ≠ [] := by
  induction s using split2.induct with
  | case1 rest ih => simp [split2]
  | case2 c rest h ih =>
    rw [split2_cons_guard c rest h]
    exact consHead_ne_nil c _
  | case3 => simp [split2]

theorem joinNN_cons_cons (p q : Str) (qs : List Str) :
    joinNN (p :: q :: qs) = p ++ '\n' :: '\n' :: joinNN (q :: qs) := rfl

theorem joinLines_cons_cons (p q : Str) (qs : List Str) :
    joinLines (p :: q :: qs) = p ++ '\n' :: joinLines (q :: qs) := rfl

theorem joinNN_consHead (c : Char) (ps : List Str) (h : ps ≠ []) :
    joinNN (consHead c ps) = c :: joinNN ps := by
  rcases ps with _ | ⟨q, _ | ⟨r, rs⟩⟩
  · exact absurd rfl h
  · rfl
  · rfl

theorem joinLines_consHead (c : Char) (ps : List Str) (h : ps ≠ []) :
    joinLines (consHead c ps) = c :: joinLines ps := by
  rcases ps with _ | ⟨q, _ | ⟨r, rs⟩⟩
  · exact absurd rfl h
  · rfl
  · rfl

theorem joinNN_split2 (s : Str) : joinNN (split2 s) = s := by
  induction s using split2.induct with
  | case1 rest ih =>
    show joinNN ([] :: split2 rest) = '\n' :: '\n' :: rest
    rcases hs : split2 rest with _ | ⟨q, qs⟩
    · exact absurd hs (split2_ne_nil rest)
    · rw [joinNN_cons_cons]
      simp only [List.nil_append]
      rw [← hs, ih]
  | case2 c rest h ih =>
    rw [split2_cons_guard c rest h, joinNN_consHead c _ (split2_ne_nil rest), ih]
  | case3 => rfl



theorem splitChar_cons_eq (sep : Char) (rest : Str) :
    splitChar sep (sep :: rest) = [] :: splitChar sep rest := by
  simp [splitChar]

theorem splitChar_cons_ne (sep c : Char) (rest : Str) (h : c ≠ sep) :
    splitChar sep (c :: rest) = consHead c (splitChar sep rest) := by
  simp [splitChar, h]

theorem joinLines_splitChar (s : Str) : joinLines (splitChar '\n' s) = s := by
  induction s with
  | nil => rfl
  | cons c rest ih =>
    by_cases hc : c = '\n'
    · subst hc
      rw [splitChar_cons_eq]
      rcases hs : splitChar '\n' rest with _ | ⟨q, qs⟩
      · exact absurd hs (splitChar_ne_nil '\n' rest)
      · rw [joinLines_cons_cons]
        simp only [List.nil_append]
        rw [← hs, ih]
    · rw [splitChar_cons_ne _ _ _ hc,
        joinLines_consHead c _ (splitChar_ne_nil '\n' rest), ih]

theorem splitChar_append_free (sep : Char) (a b : Str) (h : sep ∉ a) :
    splitChar sep (a ++ sep :: b) = a :: splitChar sep b := by
  induction a with
  | nil => simp [splitChar_cons_eq]
  | cons x xs ih =>
    have hx : x ≠ sep := fun hc => h (hc ▸ List.mem_cons_self x xs)
    rw [List.cons_append, splitChar_cons_ne _ _ _ hx,
      ih fun hc => h (List.mem_cons_of_mem x hc)]
    rfl

theorem split2_append_free (a b : Str) (h : '\n' ∉ a) :
    split2 (a ++ '\n' :: '\n' :: b) = a :: split2 b := by
  induction a with
  | nil => simp [split2]
  | cons x xs ih =>
    have hx : x ≠ '\n' := fun hc => h (hc ▸ List.mem_cons_self x xs)
    rw [List.cons_append, split2_cons_of_ne x _ hx,
      ih fun hc => h (List.mem_cons_of_mem x hc)]
    rfl

theorem splitChar_single (sep : Char) (a : Str) (h : sep ∉ a) :
    splitChar sep a = [a] := by
  induction a with
  | nil => rfl
  | cons x xs ih =>
    have hx : x ≠ sep := fun hc => h (hc ▸ List.mem_cons_self x xs)
    rw [splitChar_cons_ne _ _ _ hx, ih fun hc => h (List.mem_cons_of_mem x hc)]
    rfl

theorem split2_single (a : Str) (h : '\n' ∉ a) : split2 a = [a] := by
  induction a with
  | nil => rfl
  | cons x xs ih =>
    have hx : x ≠ '\n' := fun hc => h (hc ▸ List.mem_cons_self x xs)
    rw [split2_cons_of_ne x _ hx, ih fun hc => h (List.mem_cons_of_mem x hc)]
    rfl

theorem not_mem_of_mem_splitChar (sep : Char) (s : Str) :
    ∀ p ∈ splitChar sep s, sep ∉ p := by
  induction s with
  | nil =>
    intro p hp
    simp only [splitChar, List.mem_singleton] at hp
    subst hp
    simp
  | cons c rest ih =>
    intro p hp
    by_cases hc : c = sep
    · subst hc
      rw [splitChar_cons_eq] at hp
      rcases List.mem_cons.mp hp with rfl | hp2
      · simp
      · exact ih p hp2
    · rw [splitChar_cons_ne _ _ _ hc] at hp
      rcases hs : splitChar sep rest with _ | ⟨q, qs⟩
      · exact absurd hs (splitChar_ne_nil sep rest)
      · rw [hs] at hp
        simp only [consHead] at hp
        rcases List.mem_cons.mp hp with rfl | hp2
        · intro hmem
          rcases List.mem_cons.mp hmem with hceq | hq
          · exact hc hceq.symm
          · exact ih q (hs ▸ List.mem_cons_self q qs) hq
        · exact ih p (hs ▸ List.mem_cons_of_mem q hp2)

theorem joinNN_append_last (l : List Str) (x : Str) (h : l ≠ []) :
    joinNN (l ++ [x]) = joinNN l ++ '\n' :: '\n' :: x := by
  induction l with
  | nil => exact absurd rfl h
  | cons y ys ih =>
    rcases ys with _ | ⟨z, zs⟩
    · rfl
    · simp only [List.cons_append] at ih ⊢
      rw [joinNN_cons_cons, joinNN_cons_cons, ih (by simp)]
      simp [List.cons_append, List.append_assoc]

theorem joinLines_append_last (l : List Str) (x : Str) (h : l ≠ []) :
    joinLines (l ++ [x]) = joinLines l ++ '\n' :: x := by
  induction l with
  | nil => exact absurd rfl h
  | cons y ys ih =>
    rcases ys with _ | ⟨z, zs⟩
    · rfl
    · simp only [List.cons_append] at ih ⊢
      rw [joinLines_cons_cons, joinLines_cons_cons, ih (by simp)]
      simp [List.cons_append, List.append_assoc]

theorem joinLines_reverse (ps : List Str) :
    (joinLines ps).reverse = joinLines ((ps.map List.reverse).reverse) := by
  induction ps with
  | nil => rfl
  | cons l ls ih =>
    rcases ls with _ | ⟨m, ms⟩
    · rfl
    · rw [joinLines_cons_cons, List.reverse_append, List.reverse_cons, ih]
      rw [show (List.map List.reverse (l :: m :: ms)).reverse =
          (List.map List.reverse (m :: ms)).reverse ++ [List.reverse l] by simp]
      rw [joinLines_append_last _ _ (by simp)]
      simp [List.append_assoc]



theorem length_dropWhile_le2 (P : Char → Bool) (l : Str) :
    (l.dropWhile P).length ≤ l.length := by
  induction l with
  | nil => simp
  | cons a r ih =>
    rw [List.dropWhile_cons]
    by_cases h : P a = true
    · rw [if_pos h]
      exact Nat.le_trans ih (by simp)
    · rw [if_neg h]

theorem mem_of_mem_dropWhile2 {α : Type} (P : α → Bool) (l : List α) (x : α)
    (h : x ∈ l.dropWhile P) : x ∈ l := by
  induction l with
  | nil => simpa using h
  | cons a r ih =>
    rw [List.dropWhile_cons] at h
    by_cases ha : P a = true
    · rw [if_pos ha] at h
      exact List.mem_cons_of_mem _ (ih h)
    · rw [if_neg ha] at h
      exact h

theorem dropWhile_head_false (P : Char → Bool) (x : Str) (h : Char) (t : Str)
    (he : x.dropWhile P = h :: t) : P h = false := by
  induction x with
  | nil => simp at he
  | cons a r ih =>
    rw [List.dropWhile_cons] at he
    by_cases ha : P a = true
    · rw [if_pos ha] at he
      exact ih he
    · rw [if_neg ha] at he
      rw [← (List.cons.inj he).1]
      simpa using ha

theorem dropWhile_idem (P : Char → Bool) (x : Str) :
    (x.dropWhile P).dropWhile P = x.dropWhile P := by
  rcases hx : x.dropWhile P with _ | ⟨h, t⟩
  · rfl
  · rw [List.dropWhile_cons, if_neg]
    simp [dropWhile_head_false P x h t hx]

theorem dropWhile_append_of_head (P : Char → Bool) (l X : Str) (hne : l ≠ [])
    (hl : l.dropWhile P = l) : (l ++ X).dropWhile P = l ++ X := by
  rcases l with _ | ⟨h, t⟩
  · exact absurd rfl hne
  · have hPh : P h = false := by
      by_contra hc
      have hc2 : P h = true := by simpa using hc
      rw [List.dropWhile_cons, if_pos hc2] at hl
      have hlen := congrArg List.length hl
      have hle := length_dropWhile_le2 P t
      simp at hlen
      omega
    simp [List.dropWhile_cons, hPh]

theorem dropWhile_joinLines (P : Char → Bool) (hP : P '\n' = true) (ps : List Str)
    (hps : ∀ l ∈ ps, l.dropWhile P = l) :
    (joinLines ps).dropWhile P = joinLines (ps.dropWhile List.isEmpty) := by
  induction ps with
  | nil => rfl
  | cons l ls ih =>
    rcases ls with _ | ⟨m, ms⟩
    · rcases l with _ | ⟨a, t⟩
      · rfl
      · have := hps (a :: t) (List.mem_cons_self _ _)
        show (a :: t).dropWhile P = joinLines (List.dropWhile List.isEmpty [a :: t])
        rw [this]
        rfl
    · rcases hl : l with _ | ⟨a, t⟩
      · show ('\n' :: joinLines (m :: ms)).dropWhile P =
          joinLines (List.dropWhile List.isEmpty ([] :: m :: ms))
        rw [List.dropWhile_cons, if_pos hP]
        exact ih fun x hx => hps x (List.mem_cons_of_mem _ hx)
      · rw [← hl]
        have hlt : l.dropWhile P = l := hps l (by rw [hl]; exact List.mem_cons_self _ _)
        have hlne : l ≠ [] := by rw [hl]; simp
        show (l ++ '\n' :: joinLines (m :: ms)).dropWhile P =
          joinLines (List.dropWhile List.isEmpty (l :: m :: ms))
        rw [dropWhile_append_of_head P l _ hlne hlt]
        rw [List.dropWhile_cons, if_neg (by rw [hl]; simp)]
        rfl

theorem isEmpty_map_rev_dropWhile (q : List Str) :
    List.dropWhile List.isEmpty (q.map List.reverse) =
      (List.dropWhile List.isEmpty q).map List.reverse := by
  induction q with
  | nil => rfl
  | cons a r ih =>
    by_cases ha : a = []
    · subst ha
      simp only [List.map_cons, List.reverse_nil, List.dropWhile_cons]
      simpa using ih
    · simp only [List.map_cons, List.dropWhile_cons]
      rw [if_neg (by simpa using ha), if_neg (by simp [List.isEmpty_iff, ha])]
      simp [List.isEmpty_iff, ha]

theorem trimBy_joinLines (P : Char → Bool) (hP : P '\n' = true) (ps : List Str)
    (hps : ∀ l ∈ ps, l.dropWhile P = l ∧ l.reverse.dropWhile P = l.reverse) :
    (((joinLines ps).dropWhile P).reverse.dropWhile P).reverse =
      joinLines (stripEnds ps) := by
  rw [dropWhile_joinLines P hP ps (fun l hl => (hps l hl).1)]
  rw [joinLines_reverse]
  rw [dropWhile_joinLines P hP _ ?hrev]
  case hrev =>
    intro l hl
    rw [List.mem_reverse] at hl
    rcases List.mem_map.mp hl with ⟨l0, hl0, rfl⟩
    exact (hps l0 (mem_of_mem_dropWhile2 _ _ _ hl0)).2
  rw [show ((ps.dropWhile List.isEmpty).map List.reverse).reverse =
      ((ps.dropWhile List.isEmpty).reverse).map List.reverse from (List.map_reverse _ _).symm]
  rw [isEmpty_map_rev_dropWhile]
  rw [joinLines_reverse]
  rw [show (((((ps.dropWhile List.isEmpty).reverse).dropWhile List.isEmpty).map
        List.reverse).map List.reverse).reverse =
      ((((ps.dropWhile List.isEmpty).reverse).dropWhile List.isEmpty)).reverse by
    rw [List.map_map]
    simp]
  rfl

theorem splitChar_joinLines (qs : List Str) (hne : qs ≠ [])
    (hfree : ∀ l ∈ qs, '\n' ∉ l) : splitChar '\n' (joinLines qs) = qs := by
  induction qs with
  | nil => exact absurd rfl hne
  | cons q rs ih =>
    rcases rs with _ | ⟨r, rrs⟩
    · show splitChar '\n' q = [q]
      exact splitChar_single '\n' q (hfree q (List.mem_cons_self _ _))
    · rw [joinLines_cons_cons]
      rw [splitChar_append_free '\n' q _ (hfree q (List.mem_cons_self _ _))]
      rw [ih (by simp) fun l hl => hfree l (List.mem_cons_of_mem _ hl)]



theorem getLast?_append_ne {α : Type} (l1 l2 : List α) (h : l2 ≠ []) :
    (l1 ++ l2).getLast? = l2.getLast? := by
  rw [List.getLast?_append]
  rcases l2 with _ | ⟨a, t⟩
  · exact absurd rfl h
  · cases hg : (a :: t).getLast? with
    | none => simp at hg
    | some x => simp

theorem dropWhile_suffix2 (P : Char → Bool) (l : Str) : l.dropWhile P <:+ l := by
  induction l with
  | nil => simp
  | cons a r ih =>
    rw [List.dropWhile_cons]
    by_cases h : P a = true
    · rw [if_pos h]
      exact ih.trans (List.suffix_cons a r)
    · rw [if_neg h]

theorem dropWhile_eq_self_of_trim (l : Str) (h : trimStr l = l) :
    l.dropWhile isWs = l := by
  have h1 : (l.dropWhile isWs).length ≤ l.length := length_dropWhile_le2 _ _
  have h2 : ((l.dropWhile isWs).reverse.dropWhile isWs).length ≤
      (l.dropWhile isWs).length := by
    have := length_dropWhile_le2 isWs (l.dropWhile isWs).reverse
    simpa using this
  have h3 : l.length = ((l.dropWhile isWs).reverse.dropWhile isWs).length := by
    conv_lhs => rw [← h]
    simp [trimStr]
  have h4 : (l.dropWhile isWs).length = l.length := Nat.le_antisymm h1 (by omega)
  exact (dropWhile_suffix2 isWs l).sublist.eq_of_length h4

theorem dropWhile_rev_eq_self_of_trim (l : Str) (h : trimStr l = l) :
    l.reverse.dropWhile isWs = l.reverse := by
  have h1 := dropWhile_eq_self_of_trim l h
  have h2 : (l.reverse.dropWhile isWs).reverse = l := by
    conv_rhs => rw [← h]
    simp [trimStr, h1]
  calc l.reverse.dropWhile isWs
      = ((l.reverse.dropWhile isWs).reverse).reverse := by simp
    _ = l.reverse := by rw [h2]

theorem trimStr_eq_self_of (l : Str) (h1 : l.dropWhile isWs = l)
    (h2 : l.reverse.dropWhile isWs = l.reverse) : trimStr l = l := by
  simp [trimStr, h1, h2]

theorem getLast?_dropWhile_of_ne (P : Char → Bool) (l : Str)
    (h : l.dropWhile P ≠ []) : (l.dropWhile P).getLast? = l.getLast? := by
  rcases dropWhile_suffix2 P l with ⟨u, hu⟩
  conv_rhs => rw [← hu]
  exact (getLast?_append_ne u _ h).symm

/-! ## Round-trip groundwork: character, list-edge and trimNl lemmas -/

theorem toNat_toLower_pos (c : Char) (h1 : 65 ≤ c.toNat) (h2 : c.toNat ≤ 90) :
    (Char.toLower c).toNat = c.toNat + 32 := by
  unfold Char.toLower
  rw [if_pos ⟨h1, h2⟩]
  have hv : (c.toNat + 32).isValidChar := Or.inl (by omega)
  unfold Char.ofNat
  rw [dif_pos hv]
  rfl

theorem toLower_eq_low (c d : Char) (hd : d.toNat < 65) (h : Char.toLower c = d) :
    c = d := by
  by_cases hc : 65 ≤ c.toNat ∧ c.toNat ≤ 90
  · have h2 := toNat_toLower_pos c hc.1 hc.2
    rw [h] at h2
    omega
  · unfold Char.toLower at h
    rw [if_neg hc] at h
    exact h

theorem map_id_of_mem {α : Type} (f : α → α) (l : List α) (h : ∀ x ∈ l, f x = x) :
    l.map f = l := by
  induction l with
  | nil => rfl
  | cons a r ih =>
    rw [List.map_cons, h a (List.mem_cons_self a r),
      ih fun x hx => h x (List.mem_cons_of_mem a hx)]

theorem contains_eq_false_of (s : Str) (c : Char) (h : c ∉ s) :
    s.contains c = false := by
  simpa using h

theorem not_mem_of_contains_false (s : Str) (c : Char) (h : s.contains c = false) :
    c ∉ s := by
  simpa using h

theorem dropWhile_eq_self_of_head (P : Char → Bool) (s : Str)
    (h : ∀ c, s.head? = some c → P c = false) : s.dropWhile P = s := by
  rcases s with _ | ⟨c, cs⟩
  · rfl
  · rw [List.dropWhile_cons, if_neg]
    simp [h c rfl]

theorem takeWhile_eq_nil_of_head (P : Char → Bool) (s : Str)
    (h : ∀ c, s.head? = some c → P c = false) : s.takeWhile P = [] := by
  rcases s with _ | ⟨c, cs⟩
  · rfl
  · rw [List.takeWhile_cons, if_neg]
    simp [h c rfl]

theorem takeWhile_append_stop (P : Char → Bool) (a : Str) (b0 : Char) (rest : Str)
    (ha : ∀ c ∈ a, P c = true) (hb : P b0 = false) :
    (a ++ b0 :: rest).takeWhile P = a ∧ (a ++ b0 :: rest).dropWhile P = b0 :: rest := by
  induction a with
  | nil =>
    constructor
    · rw [List.nil_append, List.takeWhile_cons, if_neg (by simp [hb])]
    · rw [List.nil_append, List.dropWhile_cons, if_neg (by simp [hb])]
  | cons x xs ih =>
    have hx : P x = true := ha x (List.mem_cons_self x xs)
    obtain ⟨iht, ihd⟩ := ih fun c hc => ha c (List.mem_cons_of_mem x hc)
    constructor
    · rw [List.cons_append, List.takeWhile_cons, if_pos hx, iht]
    · rw [List.cons_append, List.dropWhile_cons, if_pos hx, ihd]

theorem trimAll_eq_nil_iff (P : Char → Bool) (s : Str) :
    ((s.dropWhile P).reverse.dropWhile P).reverse = [] ↔ ∀ c ∈ s, P c = true := by
  constructor
  · intro h c hc
    have h1 : (s.dropWhile P).reverse.dropWhile P = [] := by
      simpa [List.reverse_eq_nil_iff] using h
    have h2 : ∀ x ∈ s.dropWhile P, P x = true := fun x hx =>
      List.dropWhile_eq_nil_iff.mp h1 x (List.mem_reverse.mpr hx)
    rcases List.mem_append.mp
        ((List.takeWhile_append_dropWhile (p := P) (l := s)) ▸ hc) with h3 | h3
    · exact List.mem_takeWhile_imp h3
    · exact h2 c h3
  · intro h
    have h1 : s.dropWhile P = [] := List.dropWhile_eq_nil_iff.mpr fun x hx => h x hx
    simp [h1]

theorem mem_trimAll (P : Char → Bool) (s : Str) (c : Char) (hc : c ∈ s)
    (hP : P c = false) : c ∈ ((s.dropWhile P).reverse.dropWhile P).reverse := by
  rw [List.mem_reverse]
  have h1 : c ∈ s.dropWhile P := by
    rcases List.mem_append.mp ((List.takeWhile_append_dropWhile (p := P) (l := s)) ▸ hc)
      with h3 | h3
    · exact absurd (List.mem_takeWhile_imp h3) (by simp [hP])
    · exact h3
  have h2 : c ∈ (s.dropWhile P).reverse := List.mem_reverse.mpr h1
  rcases List.mem_append.mp
      ((List.takeWhile_append_dropWhile (p := P) (l := (s.dropWhile P).reverse)) ▸ h2)
    with h3 | h3
  · exact absurd (List.mem_takeWhile_imp h3) (by simp [hP])
  · exact h3

theorem trimNl_eq_nil_iff (s : Str) : trimNl s = [] ↔ ∀ c ∈ s, c = '\n' := by
  have h := trimAll_eq_nil_iff (fun c => decide (c = '\n')) s
  simpa [trimNl] using h

theorem mem_trimNl (s : Str) (c : Char) (hc : c ∈ s) (hne : c ≠ '\n') :
    c ∈ trimNl s :=
  mem_trimAll (fun c => decide (c = '\n')) s c hc (by simp [hne])

theorem trimNl_head_ne (s : Str) : (trimNl s).head? ≠ some '\n' := by
  intro hc
  have hc2 : (((s.dropWhile fun c => decide (c = '\n')).reverse.dropWhile
      fun c => decide (c = '\n')).reverse).head? = some '\n' := hc
  rw [List.head?_reverse] at hc2
  have hne : ((s.dropWhile fun c => decide (c = '\n')).reverse).dropWhile
      (fun c => decide (c = '\n')) ≠ [] := by
    intro h0
    rw [h0] at hc2
    simp at hc2
  rw [getLast?_dropWhile_of_ne _ _ hne, List.getLast?_reverse] at hc2
  rcases hd : s.dropWhile (fun c => decide (c = '\n')) with _ | ⟨c, cs⟩
  · rw [hd] at hc2
    simp at hc2
  · rw [hd] at hc2
    simp only [List.head?_cons, Option.some.injEq] at hc2
    have hfalse := dropWhile_head_false _ s c cs hd
    rw [hc2] at hfalse
    simp at hfalse

theorem trimNl_getLast_ne (s : Str) : (trimNl s).getLast? ≠ some '\n' := by
  intro hc
  have hc2 : (((s.dropWhile fun c => decide (c = '\n')).reverse.dropWhile
      fun c => decide (c = '\n')).reverse).getLast? = some '\n' := hc
  rw [List.getLast?_reverse] at hc2
  rcases hd : ((s.dropWhile fun c => decide (c = '\n')).reverse).dropWhile
      (fun c => decide (c = '\n')) with _ | ⟨c, cs⟩
  · rw [hd] at hc2
    simp at hc2
  · rw [hd] at hc2
    simp only [List.head?_cons, Option.some.injEq] at hc2
    have hfalse := dropWhile_head_false _ _ c cs hd
    rw [hc2] at hfalse
    simp at hfalse

theorem noNlEdge_trimNl (s : Str) : noNlEdge (trimNl s) :=
  ⟨trimNl_head_ne s, trimNl_getLast_ne s⟩

theorem trimNl_eq_self (s : Str) (h : noNlEdge s) : trimNl s = s := by
  obtain ⟨h1, h2⟩ := h
  have e1 : s.dropWhile (fun c => decide (c = '\n')) = s := by
    apply dropWhile_eq_self_of_head
    intro c hc
    simp only [decide_eq_false_iff_not]
    intro hcc
    exact h1 (by rw [hc, hcc])
  have e2 : s.reverse.dropWhile (fun c => decide (c = '\n')) = s.reverse := by
    apply dropWhile_eq_self_of_head
    intro c hc
    rw [List.head?_reverse] at hc
    simp only [decide_eq_false_iff_not]
    intro hcc
    exact h2 (by rw [hc, hcc])
  show ((s.dropWhile (fun c => decide (c = '\n'))).reverse.dropWhile
      (fun c => decide (c = '\n'))).reverse = s
  rw [e1, e2, List.reverse_reverse]

theorem pruneFilter_true (ls : List Str) : pruneFilter true ls = ls := by
  induction ls with
  | nil => rfl
  | cons l rest ih =>
    show l :: pruneFilter true rest = l :: rest
    rw [ih]

theorem pruneFilter_split (ls : List Str) :
    (∀ l ∈ pruneFilter false ls, trimStr l = []) ∨
    ∃ bs l0 rest2, pruneFilter false ls = bs ++ l0 :: rest2 ∧
      (∀ b ∈ bs, trimStr b = []) ∧ trimStr l0 ≠ [] ∧ is_git_header l0 = false := by
  induction ls with
  | nil =>
    left
    intro l hl
    simp [pruneFilter] at hl
  | cons l rest ih =>
    by_cases hb : trimStr l = []
    · have hstep : pruneFilter false (l :: rest) = l :: pruneFilter false rest := by
        show (if trimStr l = [] then l :: pruneFilter false rest
          else if is_git_header l then pruneFilter false rest
          else l :: pruneFilter true rest) = l :: pruneFilter false rest
        rw [if_pos hb]
      rw [hstep]
      rcases ih with ha | ⟨bs, l0, rs, heq, hbs, hl0, hh⟩
      · left
        intro x hx
        rcases List.mem_cons.mp hx with rfl | hx2
        · exact hb
        · exact ha x hx2
      · right
        refine ⟨l :: bs, l0, rs, by rw [heq]; simp, ?_, hl0, hh⟩
        intro b hb2
        rcases List.mem_cons.mp hb2 with rfl | h3
        · exact hb
        · exact hbs b h3
    · by_cases hg : is_git_header l
      · have hstep : pruneFilter false (l :: rest) = pruneFilter false rest := by
          show (if trimStr l = [] then l :: pruneFilter false rest
            else if is_git_header l then pruneFilter false rest
            else l :: pruneFilter true rest) = pruneFilter false rest
          rw [if_neg hb, if_pos hg]
        rw [hstep]
        exact ih
      · right
        refine ⟨[], l, rest, ?_, by simp, hb, by simpa using hg⟩
        show (if trimStr l = [] then l :: pruneFilter false rest
          else if is_git_header l then pruneFilter false rest
          else l :: pruneFilter true rest) = [] ++ l :: rest
        rw [if_neg hb, if_neg hg, pruneFilter_true]
        simp

theorem nl_not_mem_rustLines (s : Str) : ∀ l ∈ rustLines s, '\n' ∉ l := by
  intro l hl
  unfold rustLines at hl
  by_cases hs : s = []
  · rw [if_pos hs] at hl
    simp at hl
  · rw [if_neg hs] at hl
    by_cases hlast : (splitChar '\n' s).getLast? = some []
    · rw [if_pos hlast] at hl
      exact not_mem_of_mem_splitChar '\n' s l (List.dropLast_subset _ hl)
    · rw [if_neg hlast] at hl
      exact not_mem_of_mem_splitChar '\n' s l hl

theorem dropWhile_suffix_g {α : Type} (P : α → Bool) (l : List α) :
    l.dropWhile P <:+ l := by
  induction l with
  | nil => simp
  | cons a r ih =>
    rw [List.dropWhile_cons]
    by_cases h : P a = true
    · rw [if_pos h]
      exact ih.trans (List.suffix_cons a r)
    · rw [if_neg h]

theorem getLast?_dropWhile_ne_g {α : Type} (P : α → Bool) (l : List α)
    (h : l.dropWhile P ≠ []) : (l.dropWhile P).getLast? = l.getLast? := by
  rcases dropWhile_suffix_g P l with ⟨u, hu⟩
  conv_rhs => rw [← hu]
  exact (getLast?_append_ne u _ h).symm

theorem mem_of_mem_stripEnds (ps : List Str) (l : Str) (h : l ∈ stripEnds ps) :
    l ∈ ps := by
  unfold stripEnds at h
  rw [List.mem_reverse] at h
  have h2 := mem_of_mem_dropWhile2 _ _ _ h
  rw [List.mem_reverse] at h2
  exact mem_of_mem_dropWhile2 _ _ _ h2

theorem head?_stripEnds (ps : List Str) (hne : stripEnds ps ≠ []) :
    (stripEnds ps).head? = (ps.dropWhile List.isEmpty).head? := by
  unfold stripEnds at hne ⊢
  rw [List.head?_reverse, getLast?_dropWhile_ne_g _ _ ?h1, List.getLast?_reverse]
  case h1 =>
    intro h0
    exact hne (by rw [h0]; rfl)

theorem trimStr_idem (l : Str) : trimStr (trimStr l) = trimStr l := by
  apply trimStr_eq_self_of
  · rcases hz : ((l.dropWhile isWs).reverse.dropWhile isWs) with _ | ⟨h1, t1⟩
    · show List.dropWhile isWs (trimStr l) = trimStr l
      unfold trimStr
      rw [hz]
      rfl
    · have hne : (l.dropWhile isWs).reverse.dropWhile isWs ≠ [] := by rw [hz]; simp
      have hgl : ((l.dropWhile isWs).reverse.dropWhile isWs).getLast? =
          ((l.dropWhile isWs).reverse).getLast? := getLast?_dropWhile_of_ne _ _ hne
      rw [List.getLast?_reverse] at hgl
      show (trimStr l).dropWhile isWs = trimStr l
      rcases hh : (trimStr l) with _ | ⟨c, cs⟩
      · rfl
      · rw [List.dropWhile_cons, if_neg, ← hh]
        have hch : (trimStr l).head? = some c := by rw [hh]; rfl
        have : (trimStr l).head? = (l.dropWhile isWs).head? := by
          show (((l.dropWhile isWs).reverse.dropWhile isWs).reverse).head? = _
          rw [List.head?_reverse, hgl]
        rw [this] at hch
        rcases hdl : l.dropWhile isWs with _ | ⟨d, ds⟩
        · rw [hdl] at hch; simp at hch
        · rw [hdl] at hch
          simp only [List.head?_cons, Option.some.injEq] at hch
          subst hch
          simp [dropWhile_head_false isWs l _ _ hdl]
  · show ((trimStr l).reverse).dropWhile isWs = (trimStr l).reverse
    unfold trimStr
    rw [List.reverse_reverse]
    exact dropWhile_idem isWs _


theorem fromStr_cases (s : Str) :
    (CommitType.fromStr s = .Custom s ∧ lowerStr s ∉ allStdAliases) ∨
    (CommitType.fromStr s ∈ stdTwelve ∧ lowerStr s ∈ allStdAliases) := by
  simp only [CommitType.fromStr]
  by_cases h1 : lowerStr s = "build".data
  · rw [if_pos h1]
    refine Or.inr ⟨by decide, ?_⟩
    rw [h1]
    decide
  rw [if_neg h1]
  by_cases h2 : lowerStr s = "chore".data
  · rw [if_pos h2]
    refine Or.inr ⟨by decide, ?_⟩
    rw [h2]
    decide
  rw [if_neg h2]
  by_cases h3 : lowerStr s = "ci".data ∨ lowerStr s = "continuous integration".data
  · rw [if_pos h3]
    refine Or.inr ⟨by decide, ?_⟩
    rcases h3 with he|he <;> rw [he] <;> decide
  rw [if_neg h3]
  by_cases h4 : lowerStr s = "cd".data ∨ lowerStr s = "deploy".data
  · rw [if_pos h4]
    refine Or.inr ⟨by decide, ?_⟩
    rcases h4 with he|he <;> rw [he] <;> decide
  rw [if_neg h4]
  by_cases h5 : lowerStr s = "doc".data ∨ lowerStr s = "docs".data ∨ lowerStr s = "documentation".data
  · rw [if_pos h5]
    refine Or.inr ⟨by decide, ?_⟩
    rcases h5 with he|he|he <;> rw [he] <;> decide
  rw [if_neg h5]
  by_cases h6 : lowerStr s = "feat".data ∨ lowerStr s = "feature".data ∨ lowerStr s = "features".data
  · rw [if_pos h6]
    refine Or.inr ⟨by decide, ?_⟩
    rcases h6 with he|he|he <;> rw [he] <;> decide
  rw [if_neg h6]
  by_cases h7 : lowerStr s = "fix".data ∨ lowerStr s = "fixes".data
  · rw [if_pos h7]
    refine Or.inr ⟨by decide, ?_⟩
    rcases h7 with he|he <;> rw [he] <;> decide
  rw [if_neg h7]
  by_cases h8 : lowerStr s = "perf".data ∨ lowerStr s = "performance".data
  · rw [if_pos h8]
    refine Or.inr ⟨by decide, ?_⟩
    rcases h8 with he|he <;> rw [he] <;> decide
  rw [if_neg h8]
  by_cases h9 : lowerStr s = "refactor".data
  · rw [if_pos h9]
    refine Or.inr ⟨by decide, ?_⟩
    rw [h9]
    decide
  rw [if_neg h9]
  by_cases h10 : lowerStr s = "revert".data
  · rw [if_pos h10]
    refine Or.inr ⟨by decide, ?_⟩
    rw [h10]
    decide
  rw [if_neg h10]
  by_cases h11 : lowerStr s = "style".data
  · rw [if_pos h11]
    refine Or.inr ⟨by decide, ?_⟩
    rw [h11]
    decide
  rw [if_neg h11]
  by_cases h12 : lowerStr s = "test".data ∨ lowerStr s = "tests".data
  · rw [if_pos h12]
    refine Or.inr ⟨by decide, ?_⟩
    rcases h12 with he|he <;> rw [he] <;> decide
  rw [if_neg h12]
  refine Or.inl ⟨rfl, ?_⟩
  intro hmem
  simp only [allStdAliases, List.mem_cons, List.not_mem_nil, or_false] at hmem
  rcases hmem with he|he|he|he|he|he|he|he|he|he|he|he|he|he|he|he|he|he|he|he|he <;> tauto

theorem fromStr_custom_inv (s v : Str) (h : CommitType.fromStr s = .Custom v) :
    v = s := by
  rcases fromStr_cases s with ⟨h1, _⟩ | ⟨h1, _⟩
  · rw [h] at h1
    exact CommitType.Custom.inj h1
  · rw [h] at h1
    simp [stdTwelve] at h1

theorem fromStr_ne_unknown (s : Str) : CommitType.fromStr s ≠ .Unknown := by
  intro he
  rcases fromStr_cases s with ⟨h1, _⟩ | ⟨h1, _⟩
  · rw [he] at h1
    exact CommitType.noConfusion h1
  · rw [he] at h1
    simp [stdTwelve] at h1

theorem fromStr_ne_noncompliant (s : Str) : CommitType.fromStr s ≠ .NonCompliant := by
  intro he
  rcases fromStr_cases s with ⟨h1, _⟩ | ⟨h1, _⟩
  · rw [he] at h1
    exact CommitType.noConfusion h1
  · rw [he] at h1
    simp [stdTwelve] at h1

theorem fromStr_alias_of_std (s : Str) (t : CommitType) (ht : t ∈ stdTwelve)
    (h : CommitType.fromStr s = t) : lowerStr s ∈ allStdAliases := by
  rcases fromStr_cases s with ⟨h1, _⟩ | ⟨_, h2⟩
  · rw [h] at h1
    subst h1
    simp [stdTwelve] at ht
  · exact h2

theorem std_facts (t : CommitType) (h : t ∈ stdTwelve) :
    t.as_str ≠ [] ∧ (∀ c ∈ t.as_str, isIdentChar c = true) ∧
    CommitType.fromStr t.as_str = t ∧ (∀ c ∈ t.as_str, isWs c = false) ∧
    '\n' ∉ t.as_str ∧ t ≠ .Unknown ∧ t ≠ .NonCompliant ∧ (∀ v, t ≠ .Custom v) := by
  fin_cases h <;>
    exact ⟨by decide, by decide, by decide, by decide, by decide, by decide,
      by decide, fun v => by simp⟩

theorem parse_commit_type_ok (tok : Str) (ct : CommitType)
    (h : parse_commit_type tok = .ok ct) :
    CommitType.fromStr tok = ct ∧ ct ≠ .Unknown := by
  unfold parse_commit_type at h
  by_cases hu : CommitType.fromStr tok = CommitType.Unknown
  · rw [if_pos hu] at h
    exact absurd h (fun hc => Except.noConfusion hc)
  · rw [if_neg hu] at h
    have h2 := Except.ok.inj h
    exact ⟨h2, h2 ▸ hu⟩

theorem parse_scope_ok (tok : Str) (osc : Option Str)
    (h : parse_scope tok = .ok osc) : osc = some tok := by
  unfold parse_scope at h
  cases hf : CommitType.fromStr tok <;> rw [hf] at h <;> dsimp only at h
  case Custom v =>
    rw [fromStr_custom_inv tok v hf] at h
    exact (Except.ok.inj h).symm
  case Unknown => exact (Except.ok.inj h).symm
  all_goals exact absurd h (fun hc => Except.noConfusion hc)



theorem parseColon_colon (subj : Str) :
    parseColon (':' :: ' ' :: subj) = some (false, subj) := rfl

theorem parseColon_false_inv (cs : Str) (subj : Str)
    (h : parseColon cs = some (false, subj)) : cs = ':' :: ' ' :: subj := by
  simp only [parseColon] at h
  split at h
  · rename_i subject heq
    have h2 := Option.some.inj h
    have hb : decide (cs.takeWhile (fun c => decide (c = '!')) ≠ []) = false :=
      congrArg Prod.fst h2
    have hs : subject = subj := congrArg Prod.snd h2
    have ht : cs.takeWhile (fun c => decide (c = '!')) = [] := by
      simpa using hb
    have hsplit := List.takeWhile_append_dropWhile
      (p := fun c => decide (c = '!')) (l := cs)
    rw [ht, heq, hs] at hsplit
    exact hsplit.symm
  · exact absurd h (fun hc => Option.noConfusion hc)

theorem parseHeaderLine_some_inv (line : Str) (hp : HeaderParts)
    (h : parseHeaderLine line = some hp) :
    hp.ctype ≠ [] ∧ (∀ c ∈ hp.ctype, isIdentChar c = true) ∧
    (∀ tok, hp.scopeTok = some tok → tok ≠ [] ∧ ∀ c ∈ tok, isIdentChar c = true) ∧
    (hp.breaking = false →
      line = hp.ctype ++ (match hp.scopeTok with
        | some tok => '(' :: (tok ++ [')'])
        | none => []) ++ ':' :: ' ' :: hp.subject) := by
  simp only [parseHeaderLine] at h
  split at h
  · exact absurd h (fun hc => Option.noConfusion hc)
  · rename_i hct
    split at h
    · rename_i cs3 hcs2
      split at h
      · rename_i cs4 hcs3
        split at h
        · exact absurd h (fun hc => Option.noConfusion hc)
        · rename_i hsc
          split at h
          · rename_i b2 subj hpc
            have h2 := Option.some.inj h
            subst h2
            refine ⟨hct, fun c hc => List.mem_takeWhile_imp hc, ?_, ?_⟩
            · intro tok htok
              have htok2 := Option.some.inj htok
              subst htok2
              exact ⟨hsc, fun c hc => List.mem_takeWhile_imp hc⟩
            · intro hbr
              simp only [Bool.or_eq_false_iff, decide_eq_false_iff_not,
                Decidable.not_not] at hbr
              obtain ⟨hb1, hb2⟩ := hbr
              subst hb2
              have hc4 : cs4 = ':' :: ' ' :: subj := parseColon_false_inv cs4 subj hpc
              have e1 := List.takeWhile_append_dropWhile
                (p := fun c => decide (c = '!')) (l := line)
              rw [hb1, List.nil_append] at e1
              have e2 := List.takeWhile_append_dropWhile
                (p := isIdentChar) (l := line.dropWhile (fun c => decide (c = '!')))
              have e3 := List.takeWhile_append_dropWhile (p := isIdentChar) (l := cs3)
              rw [hcs3, hc4] at e3
              rw [hcs2] at e2
              have hline : line =
                  List.takeWhile isIdentChar
                    (List.dropWhile (fun c => decide (c = '!')) line) ++
                  '(' :: (List.takeWhile isIdentChar cs3 ++ ')' :: ':' :: ' ' :: subj) := by
                rw [e3, e2, e1]
              dsimp only
              conv_lhs => rw [hline]
              simp [List.append_assoc]
          · exact absurd h (fun hc => Option.noConfusion hc)
      · exact absurd h (fun hc => Option.noConfusion hc)
    · split at h
      · rename_i b2 subj hpc
        have h2 := Option.some.inj h
        subst h2
        refine ⟨hct, fun c hc => List.mem_takeWhile_imp hc, ?_, ?_⟩
        · intro tok htok
          exact absurd htok (fun hc => Option.noConfusion hc)
        · intro hbr
          simp only [Bool.or_eq_false_iff, decide_eq_false_iff_not,
            Decidable.not_not] at hbr
          obtain ⟨hb1, hb2⟩ := hbr
          subst hb2
          have hc2 :
              (line.dropWhile (fun c => decide (c = '!'))).dropWhile isIdentChar =
                ':' :: ' ' :: subj := parseColon_false_inv _ subj hpc
          have e1 := List.takeWhile_append_dropWhile
            (p := fun c => decide (c = '!')) (l := line)
          rw [hb1, List.nil_append] at e1
          have e2 := List.takeWhile_append_dropWhile
            (p := isIdentChar) (l := line.dropWhile (fun c => decide (c = '!')))
          rw [hc2] at e2
          have hline : line =
              List.takeWhile isIdentChar
                (List.dropWhile (fun c => decide (c = '!')) line) ++
              ':' :: ' ' :: subj := by
            rw [e2, e1]
          dsimp only
          conv_lhs => rw [hline]
          simp
      · exact absurd h (fun hc => Option.noConfusion hc)



theorem ident_head_scans (ct : Str) (X : Str) (hct : ct ≠ [])
    (hcta : ∀ c ∈ ct, isIdentChar c = true) :
    (ct ++ X).takeWhile (fun c => decide (c = '!')) = [] ∧
    (ct ++ X).dropWhile (fun c => decide (c = '!')) = ct ++ X := by
  rcases ct with _ | ⟨c0, ct2⟩
  · exact absurd rfl hct
  · have hid := hcta c0 (List.mem_cons_self _ _)
    have hb : decide (c0 = '!') = false := by
      simp only [decide_eq_false_iff_not]
      intro hbang
      rw [hbang] at hid
      exact absurd hid (by decide)
    constructor
    · rw [List.cons_append, List.takeWhile_cons, if_neg (by simp [hb])]
    · rw [List.cons_append, List.dropWhile_cons, if_neg (by simp [hb])]

theorem parseHeaderLine_build (ct : Str) (scTok : Option Str) (subj SP : Str)
    (hct : ct ≠ []) (hcta : ∀ c ∈ ct, isIdentChar c = true)
    (hSP : SP = (match scTok with
      | some tok => '(' :: (tok ++ [')'])
      | none => ([] : Str)))
    (hsc : ∀ tok, scTok = some tok → tok ≠ [] ∧ ∀ c ∈ tok, isIdentChar c = true) :
    parseHeaderLine (ct ++ SP ++ ':' :: ' ' :: subj) = some ⟨false, ct, scTok, subj⟩ := by
  rcases scTok with _ | tok
  · rw [hSP]
    rw [show (ct ++ ([] : Str) ++ ':' :: ' ' :: subj) = ct ++ ':' :: ' ' :: subj by simp]
    obtain ⟨hbt, hbd⟩ := ident_head_scans ct (':' :: ' ' :: subj) hct hcta
    obtain ⟨hit, hid⟩ := takeWhile_append_stop isIdentChar ct ':' (' ' :: subj)
      hcta (by decide)
    simp only [parseHeaderLine, hbt, hbd, hit, hid]
    rw [if_neg hct]
    split
    · rename_i cs3 heq
      exact absurd (List.cons.inj heq).1 (by decide)
    · rw [parseColon_colon]
      simp
  · rw [hSP]
    rw [show (ct ++ ('(' :: (tok ++ [')'])) ++ ':' :: ' ' :: subj) =
        ct ++ '(' :: (tok ++ ')' :: ':' :: ' ' :: subj) by simp]
    obtain ⟨htokne, htoka⟩ := hsc tok rfl
    obtain ⟨hbt, hbd⟩ := ident_head_scans ct ('(' :: (tok ++ ')' :: ':' :: ' ' :: subj))
      hct hcta
    obtain ⟨hit, hid⟩ := takeWhile_append_stop isIdentChar ct '('
      (tok ++ ')' :: ':' :: ' ' :: subj) hcta (by decide)
    obtain ⟨hst, hsd⟩ := takeWhile_append_stop isIdentChar tok ')'
      (':' :: ' ' :: subj) htoka (by decide)
    simp only [parseHeaderLine, hbt, hbd, hit, hid, hst, hsd]
    rw [if_neg hct, if_neg htokne, parseColon_colon]
    simp

theorem headerFields_ok_inv (hd : Str) (c : ConventionalCommit)
    (h : headerFields hd = .ok c) :
    c.body = none ∧ c.footer = none ∧ c.prefixOpt = none ∧
    ((parseHeaderLine hd = none ∧ c = { baseCommit with subject := hd }) ∨
     (∃ hp, parseHeaderLine hd = some hp ∧
        parse_commit_type hp.ctype = .ok c.commit_type ∧
        c.subject = hp.subject ∧ c.breaking_change = hp.breaking ∧
        ((hp.scopeTok = none ∧ c.scope = none) ∨
         (∃ tok, hp.scopeTok = some tok ∧ parse_scope tok = .ok c.scope ∧
            c.scope = some tok)))) := by
  unfold headerFields at h
  split at h
  · rename_i hp hph
    split at h
    · exact absurd h (fun hc => Except.noConfusion hc)
    · rename_i ct hct
      split at h
      · rename_i tok htok
        split at h
        · exact absurd h (fun hc => Except.noConfusion hc)
        · rename_i sc hsc
          have h2 := Except.ok.inj h
          subst h2
          exact ⟨rfl, rfl, rfl, Or.inr ⟨hp, hph, hct, rfl, rfl,
            Or.inr ⟨tok, htok, hsc, parse_scope_ok tok sc hsc⟩⟩⟩
      · rename_i htok
        have h2 := Except.ok.inj h
        subst h2
        exact ⟨rfl, rfl, rfl, Or.inr ⟨hp, hph, hct, rfl, rfl,
          Or.inl ⟨htok, rfl⟩⟩⟩
  · rename_i hph
    have h2 := Except.ok.inj h
    subst h2
    exact ⟨rfl, rfl, rfl, Or.inl ⟨hph, rfl⟩⟩

theorem buildCommit_ok_inv (hd sec : Str) (p : ConventionalCommit)
    (h : buildCommit hd sec = .ok p) :
    ∃ c, headerFields hd = .ok c ∧ p = finalize_commit (applySection c sec) := by
  unfold buildCommit at h
  split at h
  · exact absurd h (fun hc => Except.noConfusion hc)
  · rename_i c hc
    exact ⟨c, hc, (Except.ok.inj h).symm⟩

theorem parseCore_ok_inv (x : Str) (p : ConventionalCommit)
    (h : parseCore x = .ok p) :
    ∃ hd tail, split2 x = hd :: tail ∧ hd.contains '\n' = false ∧
      buildCommit hd (trimNl (joinNN tail)) = .ok p := by
  unfold parseCore at h
  split at h
  · exact absurd h (fun hc => Except.noConfusion hc)
  · rename_i hd tail hsp
    by_cases hc : hd.contains '\n' = true
    · rw [if_pos hc] at h
      exact absurd h (fun hcc => Except.noConfusion hcc)
    · rw [if_neg hc] at h
      exact ⟨hd, tail, hsp, by simpa using hc, h⟩

theorem new_ok_inv (m : Str) (p : ConventionalCommit)
    (h : ConventionalCommit.new m = .ok p) :
    trimStr m ≠ [] ∧
    parseCore (if prune_message m = [] then m else prune_message m) = .ok p := by
  simp only [ConventionalCommit.new] at h
  by_cases ht : trimStr m = []
  · rw [if_pos ht] at h
    exact absurd h (fun hc => Except.noConfusion hc)
  · rw [if_neg ht] at h
    exact ⟨ht, h⟩

theorem applySection_proj (c : ConventionalCommit) (sec : Str) :
    (applySection c sec).commit_type = c.commit_type ∧
    (applySection c sec).scope = c.scope ∧
    (applySection c sec).subject = c.subject ∧
    (applySection c sec).breaking_change = c.breaking_change ∧
    (applySection c sec).prefixOpt = c.prefixOpt := by
  unfold applySection
  split
  · exact ⟨rfl, rfl, rfl, rfl, rfl⟩
  · exact ⟨rfl, rfl, rfl, rfl, rfl⟩

theorem applySection_nil (c : ConventionalCommit) : applySection c [] = c := by
  unfold applySection
  rw [if_pos rfl]

theorem applySection_fields (c : ConventionalCommit) (sec : Str) (hsec : sec ≠ []) :
    (applySection c sec).body = (if joinNN (split2 sec).dropLast = [] then none
      else some (joinNN (split2 sec).dropLast)) ∧
    (applySection c sec).footer = (if (split2 sec).getLastD [] = [] then none
      else some ((split2 sec).getLastD [])) := by
  unfold applySection
  rw [if_neg hsec]
  exact ⟨rfl, rfl⟩

theorem commit_eta (c : ConventionalCommit) (hb : c.breaking_change = false) :
    { c with breaking_change := false } = c := by
  cases c
  simp_all

theorem bodyBreaking_extract (r p : ConventionalCommit) (h : bodyBreaking r = p)
    (hrb : r.breaking_change = false) (hpb : p.breaking_change = false) : p = r := by
  unfold bodyBreaking at h
  split at h
  · rename_i b hbody
    have h3 : (split2 b).any (fun q => "BREAKING CHANGE".data.isPrefixOf q) =
        p.breaking_change := congrArg ConventionalCommit.breaking_change h
    rw [hpb] at h3
    rw [← h, h3]
    exact commit_eta r hrb
  · exact h.symm

theorem finalize_extract (q p : ConventionalCommit) (h : finalize_commit q = p)
    (hb : p.breaking_change = false) :
    q.breaking_change = false ∧
    p = (if q.commit_type = .Unknown ∧ q.scope = none ∧ q.subject ≠ []
        then { q with commit_type := .NonCompliant }
        else q) := by
  simp only [finalize_commit] at h
  set r := if q.commit_type = .Unknown ∧ q.scope = none ∧ q.subject ≠ []
      then { q with commit_type := CommitType.NonCompliant } else q with hr
  have hrb : r.breaking_change = q.breaking_change := by
    rw [hr]
    split <;> rfl
  by_cases hqb : q.breaking_change = true
  · rw [if_pos (by rw [hrb]; exact hqb)] at h
    rw [← h] at hb
    rw [hrb, hqb] at hb
    exact absurd hb (by simp)
  · have hqb2 : q.breaking_change = false := by simpa using hqb
    rw [if_neg (by rw [hrb, hqb2]; simp)] at h
    refine ⟨hqb2, ?_⟩
    split at h
    · rename_i f hf
      by_cases h1 : "BREAKING CHANGE:".data.isPrefixOf f = true
      · rw [if_pos h1] at h
        rw [← h] at hb
        have hx : (true : Bool) = false := hb
        exact absurd hx (by simp)
      · rw [if_neg h1] at h
        by_cases h2 : "BREAKING CHANGE".data.isPrefixOf f = true
        · rw [if_pos h2] at h
          rw [← h] at hb
          have hx : (true : Bool) = false := hb
          exact absurd hx (by simp)
        · rw [if_neg h2] at h
          exact bodyBreaking_extract r p h (by rw [hrb]; exact hqb2) hb
    · exact bodyBreaking_extract r p h (by rw [hrb]; exact hqb2) hb



theorem format_eq_nonbreaking (p : ConventionalCommit) (hb : p.breaking_change = false) :
    p.format = formatHeader p
      ++ (match p.body with | some b => '\n' :: '\n' :: b | none => ([] : Str))
      ++ (match p.footer with | some f => '\n' :: '\n' :: f | none => ([] : Str)) := by
  obtain ⟨ct, sc, subj, ft, bd, pf, br⟩ := p
  have hb2 : br = false := hb
  subst hb2
  unfold ConventionalCommit.format formatHeader formatTitle
  rcases ft with _ | f <;> rcases bd with _ | b <;> cases ct <;>
    simp [List.append_assoc]

theorem getLastD_eq_getLast_of_ne {α : Type} (l : List α) (d : α) (h : l ≠ []) :
    l.getLastD d = l.getLast h := by
  rw [List.getLastD_eq_getLast?, List.getLast?_eq_getLast l h]
  rfl

theorem joinNN_cons_cons_ne_nil (a b : Str) (l : List Str) :
    joinNN (a :: b :: l) ≠ [] := by
  rw [joinNN_cons_cons]
  simp

theorem joinNN_dropLast_getLast (a b : Str) (l : List Str) :
    joinNN (a :: b :: l) = joinNN (a :: b :: l).dropLast ++
      '\n' :: '\n' :: (a :: b :: l).getLast (by simp) := by
  conv_lhs => rw [show (a :: b :: l) =
    (a :: b :: l).dropLast ++ [(a :: b :: l).getLast (by simp)] from
    (List.dropLast_concat_getLast (by simp)).symm]
  rw [joinNN_append_last _ _ (by show a :: (b :: l).dropLast ≠ []; simp)]

theorem applySection_sections (c : ConventionalCommit) (sec : Str) (hsec : sec ≠ [])
    (hedge : noNlEdge sec) :
    (match (applySection c sec).body with
      | some b => '\n' :: '\n' :: b
      | none => ([] : Str)) ++
    (match (applySection c sec).footer with
      | some f => '\n' :: '\n' :: f
      | none => ([] : Str)) = '\n' :: '\n' :: sec := by
  obtain ⟨hbody, hfoot⟩ := applySection_fields c sec hsec
  rw [hbody, hfoot]
  rcases hsp : split2 sec with _ | ⟨b1, bs⟩
  · exact absurd hsp (split2_ne_nil sec)
  · have hjoin := joinNN_split2 sec
    rw [hsp] at hjoin
    rcases bs with _ | ⟨b2, bs2⟩
    · -- single block: sec = b1
      have hb1 : b1 = sec := hjoin
      have hd1 : ([b1] : List Str).dropLast = [] := rfl
      have hg1 : ([b1] : List Str).getLastD [] = b1 := rfl
      rw [hd1, hg1, show joinNN ([] : List Str) = [] from rfl, if_pos rfl,
        if_neg (by rw [hb1]; exact hsec)]
      rw [hb1]
      rfl
    · -- two or more blocks
      have hLne : (b1 :: b2 :: bs2 : List Str) ≠ [] := by simp
      have hdLne : (b1 :: b2 :: bs2 : List Str).dropLast ≠ [] := by
        show b1 :: (b2 :: bs2).dropLast ≠ []
        simp
      have hjoin2 : sec = joinNN (b1 :: b2 :: bs2).dropLast ++
          '\n' :: '\n' :: (b1 :: b2 :: bs2).getLast hLne := by
        rw [← hjoin]
        exact joinNN_dropLast_getLast b1 b2 bs2
      have hlast_ne : (b1 :: b2 :: bs2).getLast hLne ≠ [] := by
        intro h0
        have hsl : sec.getLast? = some '\n' := by
          rw [hjoin2, h0]
          rw [show joinNN (b1 :: b2 :: bs2).dropLast ++ '\n' :: '\n' :: ([] : Str) =
            joinNN (b1 :: b2 :: bs2).dropLast ++ ['\n', '\n'] from rfl]
          rw [getLast?_append_ne _ _ (by simp)]
          rfl
        exact hedge.2 hsl
      have hbody_ne : joinNN (b1 :: b2 :: bs2 : List Str).dropLast ≠ [] := by
        show joinNN (b1 :: (b2 :: bs2).dropLast) ≠ []
        rcases hbs2 : (b2 :: bs2).dropLast with _ | ⟨r, rs⟩
        · show joinNN [b1] ≠ []
          intro hb1nil
          have hb1nil2 : b1 = [] := hb1nil
          have hbs2nil : bs2 = [] := by
            rcases hz : bs2 with _ | ⟨z, zs⟩
            · rfl
            · rw [hz] at hbs2
              have : b2 :: (z :: zs).dropLast = [] := hbs2
              simp at this
          have hhead : sec.head? = some '\n' := by
            rw [← hjoin, hbs2nil, hb1nil2]
            rfl
          exact hedge.1 hhead
        · exact joinNN_cons_cons_ne_nil b1 r rs
      have hgd : (b1 :: b2 :: bs2 : List Str).getLastD [] =
          (b1 :: b2 :: bs2).getLast hLne := getLastD_eq_getLast_of_ne _ [] hLne
      rw [hgd, if_neg hbody_ne, if_neg hlast_ne]
      show '\n' :: '\n' :: joinNN (b1 :: b2 :: bs2).dropLast ++
        '\n' :: '\n' :: (b1 :: b2 :: bs2).getLast hLne = '\n' :: '\n' :: sec
      rw [hjoin2]
      rfl



theorem ident_not_ws (c : Char) (h : isIdentChar c = true) : isWs c = false := by
  by_contra hc
  have hc2 : isWs c = true := by simpa using hc
  unfold isWs at hc2
  simp only [Bool.or_eq_true, decide_eq_true_eq] at hc2
  rcases hc2 with ((rfl | rfl) | rfl) | rfl <;> exact absurd h (by decide)

theorem ident_ne_nl (c : Char) (h : isIdentChar c = true) : c ≠ '\n' := by
  intro he
  rw [he] at h
  exact absurd h (by decide)

theorem dropWhile_append_mid (P : Char → Bool) (A : Str) (c0 : Char) (B : Str)
    (hc0 : P c0 = false) :
    (A ++ c0 :: B).dropWhile P = A.dropWhile P ++ c0 :: B := by
  induction A with
  | nil => simp [List.dropWhile_cons, hc0]
  | cons a as ih =>
    rw [List.cons_append, List.dropWhile_cons, List.dropWhile_cons]
    by_cases ha : P a = true
    · rw [if_pos ha, if_pos ha]
      exact ih
    · rw [if_neg ha, if_neg ha]
      rfl

theorem trim_ident_head (x : Str) (c0 : Char) (L : Str) (hxne : x ≠ [])
    (hx : ∀ c ∈ x, isIdentChar c = true) (hc0 : isWs c0 = false) :
    trimStr (x ++ c0 :: L) = x ++ c0 :: (L.reverse.dropWhile isWs).reverse := by
  unfold trimStr
  have hleft : (x ++ c0 :: L).dropWhile isWs = x ++ c0 :: L := by
    apply dropWhile_eq_self_of_head
    intro c hc
    rcases x with _ | ⟨c1, x2⟩
    · exact absurd rfl hxne
    · rw [List.cons_append, List.head?_cons] at hc
      have h0 := Option.some.inj hc
      rw [← h0]
      exact ident_not_ws c1 (hx c1 (List.mem_cons_self _ _))
  rw [hleft, List.reverse_append, List.reverse_cons, List.append_assoc,
    List.singleton_append, dropWhile_append_mid isWs _ c0 _ hc0]
  simp [List.reverse_append]

set_option maxHeartbeats 2000000 in
theorem is_git_header_of_alias (x SP subj : Str)
    (hxne : x ≠ []) (hx : ∀ c ∈ x, isIdentChar c = true)
    (hSP : SP = [] ∨ ∃ y, SP = '(' :: y)
    (ha : lowerStr x ∈ allStdAliases) :
    is_git_header (x ++ SP ++ ':' :: ' ' :: subj) = false := by
  obtain ⟨c0, L, hform, hc0⟩ : ∃ c0 L, x ++ SP ++ ':' :: ' ' :: subj = x ++ c0 :: L ∧
      (c0 = '(' ∨ c0 = ':') := by
    rcases hSP with rfl | ⟨y, rfl⟩
    · exact ⟨':', ' ' :: subj, by simp, Or.inr rfl⟩
    · exact ⟨'(', y ++ ':' :: ' ' :: subj, by simp, Or.inl rfl⟩
  rw [hform]
  simp only [is_git_header]
  rw [trim_ident_head x c0 L hxne hx (by rcases hc0 with rfl | rfl <;> decide)]
  rw [show lowerStr (x ++ c0 :: (L.reverse.dropWhile isWs).reverse) =
      lowerStr x ++ Char.toLower c0 :: lowerStr ((L.reverse.dropWhile isWs).reverse) by
    simp [lowerStr]]
  have hc0l : Char.toLower c0 = c0 := by rcases hc0 with rfl | rfl <;> decide
  rw [hc0l]
  have hnosp : ' ' ∉ lowerStr x := by
    intro hsp2
    rcases List.mem_map.mp hsp2 with ⟨c2, hcm, hlc⟩
    have hcsp : c2 = ' ' := toLower_eq_low c2 ' ' (by decide) hlc
    subst hcsp
    exact absurd (hx ' ' hcm) (by decide)
  simp only [allStdAliases, List.mem_cons, List.not_mem_nil, or_false] at ha
  rcases ha with ha|ha|ha|ha|ha|ha|ha|ha|ha|ha|ha|ha|ha|ha|ha|ha|ha|ha|ha|ha|ha <;>
    rw [ha] <;>
    first
      | (rcases hc0 with rfl | rfl <;> rfl)
      | exact absurd (show (' ' ∈ lowerStr x) by rw [ha]; decide) hnosp



theorem commit_ext (a b : ConventionalCommit)
    (h1 : a.commit_type = b.commit_type) (h2 : a.scope = b.scope)
    (h3 : a.subject = b.subject) (h4 : a.footer = b.footer)
    (h5 : a.body = b.body) (h6 : a.prefixOpt = b.prefixOpt)
    (h7 : a.breaking_change = b.breaking_change) : a = b := by
  cases a
  cases b
  simp_all

theorem parse_commit_type_std (t : CommitType) (ht : t ∈ stdTwelve) :
    parse_commit_type t.as_str = .ok t := by
  obtain ⟨-, -, hfs, -, -, hu, -, -⟩ := std_facts t ht
  unfold parse_commit_type
  rw [hfs, if_neg hu]

set_option maxHeartbeats 1000000 in
theorem reparse_eq (hd sec : Str) (p : ConventionalCommit)
    (hnl : hd.contains '\n' = false)
    (hedge : noNlEdge sec)
    (hbc : buildCommit hd sec = .ok p)
    (hb : p.breaking_change = false) :
    p.format = formatHeader p ++ (if sec = [] then [] else '\n' :: '\n' :: sec) ∧
    '\n' ∉ formatHeader p ∧
    parseCore p.format = .ok p ∧
    (formatHeader p = hd ∨
      ∃ t ctype, t ∈ stdTwelve ∧ p.commit_type = t ∧
        ctype ≠ [] ∧ (∀ ch ∈ ctype, isIdentChar ch = true) ∧
        lowerStr ctype ∈ allStdAliases ∧
        formatHeader p = t.as_str ++ (match p.scope with
          | some s => '(' :: (s ++ [')'])
          | none => ([] : Str)) ++ ':' :: ' ' :: p.subject ∧
        hd = ctype ++ (match p.scope with
          | some s => '(' :: (s ++ [')'])
          | none => ([] : Str)) ++ ':' :: ' ' :: p.subject) := by
  have hdnl : '\n' ∉ hd := not_mem_of_contains_false hd '\n' hnl
  obtain ⟨c, hhf, hpfin⟩ := buildCommit_ok_inv hd sec p hbc
  obtain ⟨hqb, hpr⟩ := finalize_extract _ p hpfin.symm hb
  obtain ⟨hqt, hqs, hqsub, hqbr, hqpre⟩ := applySection_proj c sec
  have hcb : c.breaking_change = false := by rw [← hqbr]; exact hqb
  obtain ⟨hcbody, hcfoot, hcpre, hcases⟩ := headerFields_ok_inv hd c hhf
  have hpsc : p.scope = c.scope := by
    rw [hpr]
    split <;> exact hqs
  have hpsub : p.subject = c.subject := by
    rw [hpr]
    split <;> exact hqsub
  have hpbody : p.body = (applySection c sec).body := by
    rw [hpr]
    split <;> rfl
  have hpfoot : p.footer = (applySection c sec).footer := by
    rw [hpr]
    split <;> rfl
  have hmain : (formatHeader p = hd ∧ '\n' ∉ formatHeader p ∧
      buildCommit (formatHeader p) sec = .ok p) ∨
      ((∃ t ctype, t ∈ stdTwelve ∧ p.commit_type = t ∧
        ctype ≠ [] ∧ (∀ ch ∈ ctype, isIdentChar ch = true) ∧
        lowerStr ctype ∈ allStdAliases ∧
        formatHeader p = t.as_str ++ (match p.scope with
          | some s => '(' :: (s ++ [')'])
          | none => ([] : Str)) ++ ':' :: ' ' :: p.subject ∧
        hd = ctype ++ (match p.scope with
          | some s => '(' :: (s ++ [')'])
          | none => ([] : Str)) ++ ':' :: ' ' :: p.subject) ∧
      '\n' ∉ formatHeader p ∧
      buildCommit (formatHeader p) sec = .ok p) := by
    rcases hcases with ⟨hph, hcrec⟩ | ⟨hp2, hph, hct, hsubj, hbrk, hscopes⟩
    · -- freeform header
      left
      have hcu : c.commit_type = .Unknown := by rw [hcrec]; rfl
      have hcsubj : c.subject = hd := by rw [hcrec]
      have hptNCU : p.commit_type = .NonCompliant ∨ p.commit_type = .Unknown := by
        rw [hpr]
        split
        · left
          rfl
        · right
          rw [hqt, hcu]
      have htitle : formatTitle p = [] := by
        unfold formatTitle
        rcases hptNCU with h | h <;> rw [h]
      have hFH : formatHeader p = hd := by
        unfold formatHeader
        rw [if_pos htitle, hpsub, hcsubj]
      exact ⟨hFH, by rw [hFH]; exact hdnl, by rw [hFH]; exact hbc⟩
    · -- compliant header
      obtain ⟨hfs, hcnu⟩ := parse_commit_type_ok hp2.ctype c.commit_type hct
      obtain ⟨hctne, hcta, hsctok, hstruct⟩ := parseHeaderLine_some_inv hd hp2 hph
      have hbrk2 : hp2.breaking = false := by rw [← hbrk]; exact hcb
      have hhd : hd = hp2.ctype ++ (match hp2.scopeTok with
          | some tok => '(' :: (tok ++ [')'])
          | none => ([] : Str)) ++ ':' :: ' ' :: hp2.subject := hstruct hbrk2
      have hptype : p.commit_type = c.commit_type := by
        rw [hpr]
        split
        · rename_i hcond
          exact absurd (hqt ▸ hcond.1) hcnu
        · exact hqt
      have hmatch_scope : (match p.scope with
          | some s => '(' :: (s ++ [')'])
          | none => ([] : Str)) = (match hp2.scopeTok with
          | some tok => '(' :: (tok ++ [')'])
          | none => ([] : Str)) := by
        rcases hscopes with ⟨hsn, hcsn⟩ | ⟨tok, hst, hpsc2, hcs2⟩
        · rw [hpsc, hcsn, hsn]
        · rw [hpsc, hcs2, hst]
      have hscope_link : (c.scope = none ∧ hp2.scopeTok = none) ∨
          (∃ tok, c.scope = some tok ∧ hp2.scopeTok = some tok ∧
            parse_scope tok = .ok c.scope) := by
        rcases hscopes with ⟨hsn, hcsn⟩ | ⟨tok, hst, hpsc2, hcs2⟩
        · exact Or.inl ⟨hcsn, hsn⟩
        · exact Or.inr ⟨tok, hcs2, hst, hpsc2⟩
      rcases fromStr_cases hp2.ctype with ⟨hcust, -⟩ | ⟨hstd, -⟩
      · -- custom title prints the original token
        left
        have hctypeC : c.commit_type = .Custom hp2.ctype := by
          rw [← hfs, hcust]
        have htitle : formatTitle p = hp2.ctype := by
          unfold formatTitle
          rw [hptype, hctypeC]
        have htne : formatTitle p ≠ [] := by rw [htitle]; exact hctne
        have hFH : formatHeader p = hd := by
          unfold formatHeader
          rw [if_neg htne, htitle, hpsub, hsubj, hmatch_scope]
          rw [show (": ".data : Str) = [':', ' '] from rfl]
          rw [hhd]
          simp [List.append_assoc]
        exact ⟨hFH, by rw [hFH]; exact hdnl, by rw [hFH]; exact hbc⟩
      · -- standard title
        right
        have hstd2 : c.commit_type ∈ stdTwelve := hfs ▸ hstd
        obtain ⟨hane, haid, hafs, hanws, hannl, hanu, hancn, hancust⟩ :=
          std_facts c.commit_type hstd2
        have htitle : formatTitle p = c.commit_type.as_str := by
          unfold formatTitle
          rw [hptype]
          have h12 := hstd2
          simp only [stdTwelve, List.mem_cons, List.not_mem_nil, or_false] at h12
          rcases h12 with h|h|h|h|h|h|h|h|h|h|h|h <;> rw [h] <;> rfl
        have htne : formatTitle p ≠ [] := by rw [htitle]; exact hane
        have hFH : formatHeader p = c.commit_type.as_str ++ (match p.scope with
            | some s => '(' :: (s ++ [')'])
            | none => ([] : Str)) ++ ':' :: ' ' :: p.subject := by
          unfold formatHeader
          rw [if_neg htne, htitle]
          rw [show (": ".data : Str) = [':', ' '] from rfl]
          simp [List.append_assoc]
        have hhd2 : hd = hp2.ctype ++ (match p.scope with
            | some s => '(' :: (s ++ [')'])
            | none => ([] : Str)) ++ ':' :: ' ' :: p.subject := by
          rw [hmatch_scope, hpsub, hsubj]
          exact hhd
        have halias : lowerStr hp2.ctype ∈ allStdAliases :=
          fromStr_alias_of_std hp2.ctype c.commit_type hstd2 hfs
        have hphFH : parseHeaderLine (c.commit_type.as_str ++ (match p.scope with
            | some s => '(' :: (s ++ [')'])
            | none => ([] : Str)) ++ ':' :: ' ' :: p.subject) =
            some ⟨false, c.commit_type.as_str, p.scope, p.subject⟩ := by
          apply parseHeaderLine_build c.commit_type.as_str p.scope p.subject _
            hane haid rfl
          intro tok htok
          rcases hscope_link with ⟨hcsn, hsn⟩ | ⟨tok2, hcs2, hst, hpsc2⟩
          · rw [hpsc, hcsn] at htok
            exact absurd htok (fun hx => Option.noConfusion hx)
          · rw [hpsc, hcs2] at htok
            have htok2 := Option.some.inj htok
            rw [← htok2]
            exact hsctok tok2 hst
        have hhfFH : headerFields (formatHeader p) = .ok c := by
          rw [hFH]
          unfold headerFields
          simp only [hphFH, parse_commit_type_std c.commit_type hstd2]
          rcases hscope_link with ⟨hcsn, hsn⟩ | ⟨tok2, hcs2, hst, hpsc2⟩
          · simp only [hpsc, hcsn]
            refine congrArg Except.ok (commit_ext _ c rfl ?_ ?_ ?_ ?_ ?_ ?_)
            · rw [hcsn]
              rfl
            · rw [hpsub]
            · rw [hcfoot]
              rfl
            · rw [hcbody]
              rfl
            · rw [hcpre]
              rfl
            · rw [hcb]
          · simp only [hpsc, hcs2, hpsc2]
            refine congrArg Except.ok (commit_ext _ c rfl ?_ ?_ ?_ ?_ ?_ ?_)
            · exact hcs2.symm
            · rw [hpsub]
            · rw [hcfoot]
              rfl
            · rw [hcbody]
              rfl
            · rw [hcpre]
              rfl
            · rw [hcb]
        have hFHnl : '\n' ∉ formatHeader p := by
          rw [hFH]
          intro hmem
          rcases List.mem_append.mp hmem with h1 | h1
          · rcases List.mem_append.mp h1 with h2 | h2
            · exact hannl h2
            · have hmem2 : '\n' ∈ hd := by
                rw [hhd2]
                exact List.mem_append.mpr (Or.inl (List.mem_append.mpr (Or.inr h2)))
              exact hdnl hmem2
          · have hmem2 : '\n' ∈ hd := by
              rw [hhd2]
              exact List.mem_append.mpr (Or.inr h1)
            exact hdnl hmem2
        have hbuildFH : buildCommit (formatHeader p) sec = .ok p := by
          unfold buildCommit
          simp only [hhfFH]
          rw [← hpfin]
        exact ⟨⟨c.commit_type, hp2.ctype, hstd2, hptype, hctne, hcta,
          halias, hFH, hhd2⟩, hFHnl, hbuildFH⟩
  have hFHnl : '\n' ∉ formatHeader p := by
    rcases hmain with ⟨h1, h2, h3⟩ | ⟨h1, h2, h3⟩ <;> exact h2
  have hbuildFH : buildCommit (formatHeader p) sec = .ok p := by
    rcases hmain with ⟨h1, h2, h3⟩ | ⟨h1, h2, h3⟩ <;> exact h3
  have hcnt : (formatHeader p).contains '\n' = false :=
    contains_eq_false_of _ _ hFHnl
  have hfmt : p.format = formatHeader p ++
      (if sec = [] then [] else '\n' :: '\n' :: sec) := by
    rw [format_eq_nonbreaking p hb]
    by_cases hsec : sec = []
    · rw [if_pos hsec]
      subst hsec
      rw [hpbody, hpfoot, applySection_nil, hcbody, hcfoot]
      simp
    · rw [if_neg hsec, List.append_assoc]
      congr 1
      rw [hpbody, hpfoot]
      exact applySection_sections c sec hsec hedge
  have hreparse : parseCore p.format = .ok p := by
    rw [hfmt]
    by_cases hsec : sec = []
    · rw [if_pos hsec, List.append_nil]
      unfold parseCore
      rw [split2_single _ hFHnl]
      show (if (formatHeader p).contains '\n' = true
        then Except.error (ConventionalCommitError.InvalidCommitMessage (formatHeader p))
        else buildCommit (formatHeader p) (trimNl (joinNN []))) = Except.ok p
      rw [hcnt, if_neg (by simp)]
      rw [show trimNl (joinNN ([] : List Str)) = [] from rfl]
      exact hsec ▸ hbuildFH
    · rw [if_neg hsec]
      unfold parseCore
      rw [split2_append_free _ _ hFHnl]
      show (if (formatHeader p).contains '\n' = true
        then Except.error (ConventionalCommitError.InvalidCommitMessage
          (formatHeader p ++ '\n' :: '\n' :: sec))
        else buildCommit (formatHeader p) (trimNl (joinNN (split2 sec)))) = Except.ok p
      rw [hcnt, if_neg (by simp)]
      rw [joinNN_split2, trimNl_eq_self sec hedge]
      exact hbuildFH
  refine ⟨hfmt, hFHnl, hreparse, ?_⟩
  rcases hmain with ⟨h1, h2, h3⟩ | ⟨h1, h2, h3⟩
  · exact Or.inl h1
  · exact Or.inr h1



theorem mem_of_mem_trimStr (l : Str) (c : Char) (h : c ∈ trimStr l) : c ∈ l := by
  unfold trimStr at h
  rw [List.mem_reverse] at h
  have h2 := mem_of_mem_dropWhile2 _ _ _ h
  rw [List.mem_reverse] at h2
  exact mem_of_mem_dropWhile2 _ _ _ h2

theorem mem_joinLines_of (ls : List Str) (l : Str) (hl : l ∈ ls) (a : Char)
    (ha : a ∈ l) : a ∈ joinLines ls := by
  induction ls with
  | nil => simp at hl
  | cons x rest ih =>
    rcases List.mem_cons.mp hl with rfl | hl2
    · rcases rest with _ | ⟨y, ys⟩
      · exact ha
      · rw [joinLines_cons_cons]
        exact List.mem_append.mpr (Or.inl ha)
    · rcases rest with _ | ⟨y, ys⟩
      · simp at hl2
      · rw [joinLines_cons_cons]
        exact List.mem_append.mpr (Or.inr (List.mem_cons_of_mem _ (ih hl2)))

theorem mem_of_mem_pruneFilter (b : Bool) (ls : List Str) :
    ∀ l ∈ pruneFilter b ls, l ∈ ls := by
  induction ls generalizing b with
  | nil =>
    intro l hl
    cases b <;> simp [pruneFilter] at hl
  | cons x rest ih =>
    intro l hl
    cases b with
    | true =>
      rcases List.mem_cons.mp hl with rfl | hl2
      · exact List.mem_cons_self _ _
      · exact List.mem_cons_of_mem _ (ih true l hl2)
    | false =>
      have hstep : pruneFilter false (x :: rest) =
          (if trimStr x = [] then x :: pruneFilter false rest
           else if is_git_header x then pruneFilter false rest
           else x :: pruneFilter true rest) := rfl
      rw [hstep] at hl
      by_cases hxb : trimStr x = []
      · rw [if_pos hxb] at hl
        rcases List.mem_cons.mp hl with rfl | hl2
        · exact List.mem_cons_self _ _
        · exact List.mem_cons_of_mem _ (ih false l hl2)
      · rw [if_neg hxb] at hl
        by_cases hxg : is_git_header x = true
        · rw [if_pos hxg] at hl
          exact List.mem_cons_of_mem _ (ih false l hl)
        · rw [if_neg hxg] at hl
          rcases List.mem_cons.mp hl with rfl | hl2
          · exact List.mem_cons_self _ _
          · exact List.mem_cons_of_mem _ (ih true l hl2)

theorem prune_ne_of_kept (m : Str) (l0 : Str)
    (hl0 : l0 ∈ pruneFilter false (rustLines m))
    (hne : trimStr l0 ≠ []) : prune_message m ≠ [] := by
  intro h0
  obtain ⟨ch, hch, hws⟩ : ∃ ch ∈ trimStr l0, isWs ch = false := by
    rcases htl : trimStr l0 with _ | ⟨ch, rest⟩
    · exact absurd htl hne
    · refine ⟨ch, htl ▸ List.mem_cons_self ch rest, ?_⟩
      have hfix : (trimStr l0).dropWhile isWs = trimStr l0 :=
        dropWhile_eq_self_of_trim _ (trimStr_idem l0)
      rw [htl] at hfix
      exact dropWhile_head_false isWs _ ch rest hfix
  have hchj : ch ∈ joinLines ((pruneFilter false (rustLines m)).map trimStr) :=
    mem_joinLines_of _ (trimStr l0) (List.mem_map.mpr ⟨l0, hl0, rfl⟩) ch hch
  have hall := (trimStr_eq_nil_iff _).mp h0
  rw [hall ch hchj] at hws
  exact Bool.noConfusion hws

theorem pruneFilter_keeps (ls : List Str) (l : Str) (hl : l ∈ ls)
    (hb : trimStr l ≠ []) (hg : is_git_header l = false) :
    l ∈ pruneFilter false ls := by
  induction ls with
  | nil => simp at hl
  | cons x rest ih =>
    have hstep : pruneFilter false (x :: rest) =
        (if trimStr x = [] then x :: pruneFilter false rest
         else if is_git_header x then pruneFilter false rest
         else x :: pruneFilter true rest) := rfl
    rw [hstep]
    rcases List.mem_cons.mp hl with rfl | hl2
    · rw [if_neg hb, if_neg (by simp [hg])]
      exact List.mem_cons_self _ _
    · by_cases hxb : trimStr x = []
      · rw [if_pos hxb]
        exact List.mem_cons_of_mem _ (ih hl2)
      · rw [if_neg hxb]
        by_cases hxg : is_git_header x = true
        · rw [if_pos hxg]
          exact ih hl2
        · rw [if_neg hxg, pruneFilter_true]
          exact List.mem_cons_of_mem _ hl2

theorem prune_empty_bh (m : Str) (h : prune_message m = []) :
    ∀ l ∈ rustLines m, trimStr l = [] ∨ is_git_header l = true := by
  intro l hl
  by_cases hb : trimStr l = []
  · exact Or.inl hb
  by_cases hg : is_git_header l = true
  · exact Or.inr hg
  exact absurd h
    (prune_ne_of_kept m l (pruneFilter_keeps (rustLines m) l hl hb (by simpa using hg)) hb)

theorem pruneFilter_all_bh (ls : List Str)
    (h : ∀ l ∈ ls, trimStr l = [] ∨ is_git_header l = true) :
    ∀ l ∈ pruneFilter false ls, trimStr l = [] := by
  induction ls with
  | nil =>
    intro l hl
    simp [pruneFilter] at hl
  | cons x rest ih =>
    intro l hl
    have hstep : pruneFilter false (x :: rest) =
        (if trimStr x = [] then x :: pruneFilter false rest
         else if is_git_header x then pruneFilter false rest
         else x :: pruneFilter true rest) := rfl
    rw [hstep] at hl
    rcases h x (List.mem_cons_self _ _) with hxb | hxg
    · rw [if_pos hxb] at hl
      rcases List.mem_cons.mp hl with rfl | hl2
      · exact hxb
      · exact ih (fun y hy => h y (List.mem_cons_of_mem _ hy)) l hl2
    · by_cases hxb : trimStr x = []
      · rw [if_pos hxb] at hl
        rcases List.mem_cons.mp hl with rfl | hl2
        · exact hxb
        · exact ih (fun y hy => h y (List.mem_cons_of_mem _ hy)) l hl2
      · rw [if_neg hxb, if_pos hxg] at hl
        exact ih (fun y hy => h y (List.mem_cons_of_mem _ hy)) l hl

theorem prune_of_all_bh (m : Str)
    (h : ∀ l ∈ rustLines m, trimStr l = [] ∨ is_git_header l = true) :
    prune_message m = [] := by
  unfold prune_message
  apply (trimStr_eq_nil_iff _).mpr
  intro ch hch
  rcases mem_joinLines _ ch hch with rfl | ⟨l2, hl2, hchl⟩
  · decide
  · rcases List.mem_map.mp hl2 with ⟨l0, hl0, rfl⟩
    rw [pruneFilter_all_bh (rustLines m) h l0 hl0] at hchl
    simp at hchl

theorem dropWhile_append_stop_g {α : Type} (P : α → Bool) (a : List α) (b0 : α)
    (rest : List α) (ha : ∀ x ∈ a, P x = true) (hb : P b0 = false) :
    (a ++ b0 :: rest).dropWhile P = b0 :: rest := by
  induction a with
  | nil => rw [List.nil_append, List.dropWhile_cons, if_neg (by simp [hb])]
  | cons x xs ih =>
    have hx : P x = true := ha x (List.mem_cons_self x xs)
    rw [List.cons_append, List.dropWhile_cons, if_pos hx,
      ih fun y hy => ha y (List.mem_cons_of_mem x hy)]

theorem is_git_header_trim (l : Str) : is_git_header (trimStr l) = is_git_header l := by
  simp only [is_git_header, trimStr_idem]



theorem rustLines_eq_splitChar (s : Str) (hs : s ≠ [])
    (hlast : s.getLast? ≠ some '\n') : rustLines s = splitChar '\n' s := by
  have hg : (splitChar '\n' s).getLast? ≠ some [] := by
    intro hg
    rcases hsp : splitChar '\n' s with _ | ⟨a, as⟩
    · exact splitChar_ne_nil '\n' s hsp
    · rw [hsp] at hg
      have hgl : (a :: as).getLast (by simp) = [] := by
        have h2 := List.getLast?_eq_getLast (a :: as) (by simp)
        rw [h2] at hg
        exact Option.some.inj hg
      have hdec := List.dropLast_concat_getLast (l := a :: as) (by simp)
      rw [hgl] at hdec
      have hjl := joinLines_splitChar s
      rw [hsp, ← hdec] at hjl
      rcases hdl : (a :: as).dropLast with _ | ⟨d, ds⟩
      · rw [hdl] at hjl
        have hnil : ([] : Str) = s := hjl
        exact hs hnil.symm
      · rw [hdl] at hjl
        rw [joinLines_append_last _ _ (by simp)] at hjl
        apply hlast
        rw [← hjl]
        rw [show joinLines (d :: ds) ++ '\n' :: ([] : Str) =
          joinLines (d :: ds) ++ ['\n'] from rfl]
        rw [getLast?_append_ne _ _ (by simp)]
        rfl
  unfold rustLines
  rw [if_neg hs]
  show (if (splitChar '\n' s).getLast? = some [] then (splitChar '\n' s).dropLast
    else splitChar '\n' s) = splitChar '\n' s
  rw [if_neg hg]

theorem head_mem_rustLines (s : Str) (hs : s ≠ []) (l0 : Str)
    (hh : (splitChar '\n' s).head? = some l0) : l0 ∈ rustLines s := by
  rcases hsp : splitChar '\n' s with _ | ⟨a, as⟩
  · exact absurd hsp (splitChar_ne_nil '\n' s)
  · rw [hsp] at hh
    have ha : a = l0 := Option.some.inj hh
    subst ha
    unfold rustLines
    rw [if_neg hs]
    show a ∈ (if (splitChar '\n' s).getLast? = some [] then (splitChar '\n' s).dropLast
      else splitChar '\n' s)
    rw [hsp]
    by_cases hg : (a :: as : List Str).getLast? = some []
    · rw [if_pos hg]
      rcases as with _ | ⟨b, bs⟩
      · exfalso
        have ha2 : a = [] := by simpa using hg
        have hjl := joinLines_splitChar s
        rw [hsp, ha2] at hjl
        have hnil : ([] : Str) = s := hjl
        exact hs hnil.symm
      · show a ∈ a :: (b :: bs).dropLast
        exact List.mem_cons_self _ _
    · rw [if_neg hg]
      exact List.mem_cons_self _ _

theorem mem_rustLines_or_nil (s : Str) (hs : s ≠ []) (l : Str)
    (hl : l ∈ splitChar '\n' s) : l ∈ rustLines s ∨ l = [] := by
  unfold rustLines
  rw [if_neg hs]
  have hz : (if (splitChar '\n' s).getLast? = some [] then (splitChar '\n' s).dropLast
      else splitChar '\n' s) = (let ps := splitChar '\n' s;
      if ps.getLast? = some [] then ps.dropLast else ps) := rfl
  rw [← hz]
  by_cases hg : (splitChar '\n' s).getLast? = some []
  · rw [if_pos hg]
    rcases hsp : splitChar '\n' s with _ | ⟨a, as⟩
    · exact absurd hsp (splitChar_ne_nil '\n' s)
    · have hgl : (a :: as).getLast (by simp) = [] := by
        have h2 := List.getLast?_eq_getLast (a :: as) (by simp)
        rw [hsp, h2] at hg
        exact Option.some.inj hg
      have hdec := List.dropLast_concat_getLast (l := a :: as) (by simp)
      rw [hsp] at hl
      rw [← hdec] at hl
      rcases List.mem_append.mp hl with h1 | h1
      · exact Or.inl h1
      · right
        rw [List.mem_singleton] at h1
        rw [h1, hgl]
  · rw [if_neg hg]
    exact Or.inl hl

theorem splitChar_format (FH sec : Str) (hFHnl : '\n' ∉ FH) :
    splitChar '\n' (FH ++ '\n' :: '\n' :: sec) = FH :: [] :: splitChar '\n' sec := by
  rw [splitChar_append_free '\n' FH _ hFHnl, splitChar_cons_eq]

theorem splitChar_trimNl (X : Str) (hne : trimNl X ≠ []) :
    splitChar '\n' (trimNl X) = stripEnds (splitChar '\n' X) := by
  have hfree := not_mem_of_mem_splitChar '\n' X
  have heq : trimNl X = joinLines (stripEnds (splitChar '\n' X)) := by
    have hb := trimBy_joinLines (fun c => decide (c = '\n')) (by decide)
      (splitChar '\n' X) ?hl
    case hl =>
      intro l hl
      have hlf := hfree l hl
      constructor
      · apply dropWhile_eq_self_of_head
        intro c2 hc2
        simp only [decide_eq_false_iff_not]
        intro hcc
        apply hlf
        rw [← hcc]
        rcases l with _ | ⟨d, ds⟩
        · simp at hc2
        · rw [show c2 = d from (Option.some.inj hc2).symm]
          exact List.mem_cons_self d ds
      · apply dropWhile_eq_self_of_head
        intro c2 hc2
        rw [List.head?_reverse] at hc2
        simp only [decide_eq_false_iff_not]
        intro hcc
        apply hlf
        rw [← hcc]
        rcases hl3 : l with _ | ⟨e, es⟩
        · rw [hl3] at hc2
          exact absurd hc2 (by simp)
        · rw [← hl3]
          have hgl := List.getLast?_eq_getLast l (by rw [hl3]; simp)
          rw [hgl] at hc2
          rw [show c2 = l.getLast (by rw [hl3]; simp) from (Option.some.inj hc2).symm]
          exact List.getLast_mem _
    rw [joinLines_splitChar] at hb
    exact hb
  rw [heq]
  apply splitChar_joinLines
  · intro h0
    rw [h0] at heq
    exact hne heq
  · intro l hl
    exact hfree l (mem_of_mem_stripEnds _ l hl)

theorem split2_head_line (x hd : Str) (tail : List Str) (hsp : split2 x = hd :: tail)
    (hnl : '\n' ∉ hd) :
    (splitChar '\n' x).head? = some hd ∧
    (tail = [] → x = hd) ∧
    (tail ≠ [] → x = hd ++ '\n' :: '\n' :: joinNN tail) := by
  have hj := joinNN_split2 x
  rw [hsp] at hj
  rcases tail with _ | ⟨t, ts⟩
  · have hx : x = hd := by
      rw [← hj]
      rfl
    refine ⟨?_, fun _ => hx, fun hcon => absurd rfl hcon⟩
    rw [hx, splitChar_single '\n' hd hnl]
    rfl
  · have hx : x = hd ++ '\n' :: '\n' :: joinNN (t :: ts) := by
      rw [← hj]
      rfl
    refine ⟨?_, fun hcon => absurd hcon (by simp), fun _ => hx⟩
    rw [hx, splitChar_append_free '\n' hd _ hnl]
    rfl

theorem trim_last_not_ws (l : Str) (htrim : trimStr l = l) (c : Char)
    (hlast : l.getLast? = some c) : isWs c = false := by
  have h2 := dropWhile_rev_eq_self_of_trim l htrim
  rw [← List.head?_reverse] at hlast
  rcases hrev : l.reverse with _ | ⟨d, ds⟩
  · rw [hrev] at hlast
    exact absurd hlast (by simp)
  · rw [hrev] at hlast h2
    have hd2 := Option.some.inj hlast
    rw [← hd2]
    exact dropWhile_head_false isWs _ d ds h2

theorem trim_head_not_ws (l : Str) (htrim : trimStr l = l) (c : Char)
    (hh : l.head? = some c) : isWs c = false := by
  have h1 := dropWhile_eq_self_of_trim l htrim
  rcases hl2 : l with _ | ⟨d, ds⟩
  · rw [hl2] at hh
    exact absurd hh (by simp)
  · rw [hl2] at hh h1
    have hd2 := Option.some.inj hh
    rw [← hd2]
    exact dropWhile_head_false isWs _ d ds h1

theorem getLast?_ne_of_not_mem {α : Type} (l : List α) (c : α) (h : c ∉ l) :
    l.getLast? ≠ some c := by
  intro hc
  rcases hl : l with _ | ⟨a, as⟩
  · rw [hl] at hc
    exact absurd hc (by simp)
  · have h2 := List.getLast?_eq_getLast l (by rw [hl]; simp)
    rw [h2] at hc
    have h3 := Option.some.inj hc
    exact h (h3 ▸ List.getLast_mem _)

theorem joinLines_dropLast_getLast (a b : Str) (l : List Str) :
    joinLines (a :: b :: l) = joinLines (a :: b :: l).dropLast ++
      '\n' :: (a :: b :: l).getLast (by simp) := by
  conv_lhs => rw [show (a :: b :: l) =
    (a :: b :: l).dropLast ++ [(a :: b :: l).getLast (by simp)] from
    (List.dropLast_concat_getLast (by simp)).symm]
  rw [joinLines_append_last _ _ (by show a :: (b :: l).dropLast ≠ []; simp)]

theorem getLast_not_ws_of_lines (s : Str) (hs : s ≠ [])
    (hlines : ∀ l ∈ splitChar '\n' s, trimStr l = l)
    (hlast : s.getLast? ≠ some '\n') :
    ∀ c, s.getLast? = some c → isWs c = false := by
  intro c hc
  rcases hsp : splitChar '\n' s with _ | ⟨a, as⟩
  · exact absurd hsp (splitChar_ne_nil '\n' s)
  · have hjl := joinLines_splitChar s
    rw [hsp] at hjl
    rcases as with _ | ⟨b, bs⟩
    · have hsa : a = s := hjl
      apply trim_last_not_ws s ?htr c hc
      case htr =>
        have hta := hlines a (by rw [hsp]; exact List.mem_cons_self _ _)
        rw [hsa] at hta
        exact hta
    · have hs2 : s = joinLines ((a :: b :: bs)).dropLast ++
          '\n' :: (a :: b :: bs).getLast (by simp) := by
        rw [← hjl]
        exact joinLines_dropLast_getLast a b bs
      have hllmem : (a :: b :: bs).getLast (by simp) ∈ splitChar '\n' s := by
        rw [hsp]
        exact List.getLast_mem _
      have hlltrim := hlines _ hllmem
      by_cases hll : (a :: b :: bs).getLast (by simp) = []
      · exfalso
        apply hlast
        rw [hs2, hll]
        rw [show joinLines ((a :: b :: bs)).dropLast ++ '\n' :: ([] : Str) =
          joinLines ((a :: b :: bs)).dropLast ++ ['\n'] from rfl]
        rw [getLast?_append_ne _ _ (by simp)]
        rfl
      · have hslast : s.getLast? = ((a :: b :: bs).getLast (by simp)).getLast? := by
          rw [hs2]
          rw [show joinLines ((a :: b :: bs)).dropLast ++
              '\n' :: (a :: b :: bs).getLast (by simp) =
            (joinLines ((a :: b :: bs)).dropLast ++ ['\n']) ++
              (a :: b :: bs).getLast (by simp) by simp]
          rw [getLast?_append_ne _ _ hll]
        rw [hslast] at hc
        exact trim_last_not_ws _ hlltrim c hc

theorem prune_eq_self (s : Str) (hs : s ≠ [])
    (hlines : ∀ l ∈ splitChar '\n' s, trimStr l = l)
    (hhead_ne : ∀ l0, (splitChar '\n' s).head? = some l0 →
      trimStr l0 ≠ [] ∧ is_git_header l0 = false)
    (htrim : trimStr s = s) (hlast : s.getLast? ≠ some '\n') :
    prune_message s = s := by
  unfold prune_message
  rw [rustLines_eq_splitChar s hs hlast]
  rcases hsp : splitChar '\n' s with _ | ⟨l0, rest⟩
  · exact absurd hsp (splitChar_ne_nil '\n' s)
  · obtain ⟨h0b, h0g⟩ := hhead_ne l0 (by rw [hsp]; rfl)
    have hstep : pruneFilter false (l0 :: rest) = l0 :: rest := by
      show (if trimStr l0 = [] then l0 :: pruneFilter false rest
        else if is_git_header l0 then pruneFilter false rest
        else l0 :: pruneFilter true rest) = l0 :: rest
      rw [if_neg h0b, if_neg (by simp [h0g]), pruneFilter_true]
    rw [hstep]
    have hmap : (l0 :: rest).map trimStr = l0 :: rest := by
      apply map_id_of_mem
      intro x hx
      exact hlines x (by rw [hsp]; exact hx)
    rw [hmap, ← hsp, joinLines_splitChar, htrim]

theorem trimStr_prune (m : Str) : trimStr (prune_message m) = prune_message m :=
  trimStr_idem _

theorem prune_props (m : Str) (hne : prune_message m ≠ []) :
    (∀ l ∈ splitChar '\n' (prune_message m), trimStr l = l ∧ '\n' ∉ l) ∧
    (∃ l0 rest, splitChar '\n' (prune_message m) = l0 :: rest ∧
      trimStr l0 ≠ [] ∧ is_git_header l0 = false) := by
  have hQtrim : ∀ l ∈ (pruneFilter false (rustLines m)).map trimStr, trimStr l = l := by
    intro l hl
    rcases List.mem_map.mp hl with ⟨l1, hl1, rfl⟩
    exact trimStr_idem l1
  have hQfree : ∀ l ∈ (pruneFilter false (rustLines m)).map trimStr, '\n' ∉ l := by
    intro l hl hnl
    rcases List.mem_map.mp hl with ⟨l1, hl1, rfl⟩
    exact nl_not_mem_rustLines m l1 (mem_of_mem_pruneFilter false _ l1 hl1)
      (mem_of_mem_trimStr l1 '\n' hnl)
  have hjoin : prune_message m =
      joinLines (stripEnds ((pruneFilter false (rustLines m)).map trimStr)) := by
    have hb := trimBy_joinLines isWs (by decide)
      ((pruneFilter false (rustLines m)).map trimStr) ?hq
    case hq =>
      intro l hl
      exact ⟨dropWhile_eq_self_of_trim l (hQtrim l hl),
        dropWhile_rev_eq_self_of_trim l (hQtrim l hl)⟩
    exact hb.symm ▸ rfl
  have hSEne : stripEnds ((pruneFilter false (rustLines m)).map trimStr) ≠ [] := by
    intro h0
    rw [h0] at hjoin
    exact hne hjoin
  have hsplit : splitChar '\n' (prune_message m) =
      stripEnds ((pruneFilter false (rustLines m)).map trimStr) := by
    rw [hjoin]
    apply splitChar_joinLines _ hSEne
    intro l hl
    exact hQfree l (mem_of_mem_stripEnds _ l hl)
  constructor
  · intro l hl
    rw [hsplit] at hl
    have hlq := mem_of_mem_stripEnds _ l hl
    exact ⟨hQtrim l hlq, hQfree l hlq⟩
  · rcases hse : stripEnds ((pruneFilter false (rustLines m)).map trimStr)
      with _ | ⟨l0, rest⟩
    · exact absurd hse hSEne
    · refine ⟨l0, rest, by rw [hsplit, hse], ?_, ?_⟩
      all_goals {
        have hh0 : (stripEnds ((pruneFilter false (rustLines m)).map trimStr)).head? =
            (((pruneFilter false (rustLines m)).map trimStr).dropWhile
              List.isEmpty).head? := head?_stripEnds _ hSEne
        rcases pruneFilter_split (rustLines m) with hall | ⟨bs, l1, rest1, hkeq, hbs, hl1b, hl1h⟩
        · exfalso
          apply hSEne
          unfold stripEnds
          have hdw : ((pruneFilter false (rustLines m)).map trimStr).dropWhile
              List.isEmpty = [] := by
            apply List.dropWhile_eq_nil_iff.mpr
            intro x hx
            rcases List.mem_map.mp hx with ⟨l1, hl1, rfl⟩
            rw [hall l1 hl1]
            rfl
          rw [hdw]
          rfl
        · have hqeq : (pruneFilter false (rustLines m)).map trimStr =
              bs.map trimStr ++ trimStr l1 :: rest1.map trimStr := by
            rw [hkeq]
            simp
          have hdw : ((pruneFilter false (rustLines m)).map trimStr).dropWhile
              List.isEmpty = trimStr l1 :: rest1.map trimStr := by
            rw [hqeq]
            apply dropWhile_append_stop_g
            · intro x hx
              rcases List.mem_map.mp hx with ⟨l2, hl2, rfl⟩
              rw [hbs l2 hl2]
              rfl
            · rcases htl1 : trimStr l1 with _ | ⟨u, us⟩
              · exact absurd htl1 hl1b
              · rfl
          rw [hse, hdw] at hh0
          have hl0 : l0 = trimStr l1 := by
            simpa using hh0
          rw [hl0]
          first
            | (rw [trimStr_idem]; exact hl1b)
            | (rw [is_git_header_trim]; exact hl1h)
      }



theorem rev_dropWhile_of_last (l : Str) (c : Char) (hl : l.getLast? = some c)
    (hc : isWs c = false) : l.reverse.dropWhile isWs = l.reverse := by
  apply dropWhile_eq_self_of_head
  intro d hd2
  rw [List.head?_reverse] at hd2
  rw [hl] at hd2
  rw [← Option.some.inj hd2]
  exact hc

theorem mem_splitChar_of_mem_rustLines (s : Str) (l : Str) (hl : l ∈ rustLines s) :
    l ∈ splitChar '\n' s := by
  unfold rustLines at hl
  by_cases hs : s = []
  · rw [if_pos hs] at hl
    simp at hl
  · rw [if_neg hs] at hl
    have hl2 : l ∈ (if (splitChar '\n' s).getLast? = some []
        then (splitChar '\n' s).dropLast else splitChar '\n' s) := hl
    by_cases hg : (splitChar '\n' s).getLast? = some []
    · rw [if_pos hg] at hl2
      exact List.dropLast_subset _ hl2
    · rw [if_neg hg] at hl2
      exact hl2

theorem ws_nl : isWs '\n' = true := by decide

set_option maxHeartbeats 2000000 in
/-- Claim C6 (amended): for every commit message m whose parse succeeds with a
non-breaking result p, re-parsing the formatted rendering of p yields exactly
the ok result p again, with category, scope, subject, body, footer and breaking
flag all equal. The unamended claim fails for breaking results, whose rendering
prints a BREAKING CHANGE footer that the source message did not carry. -/
theorem C6_roundtrip (m : Str) (p : ConventionalCommit)
    (hp : ConventionalCommit.new m = .ok p) (hb : p.breaking_change = false) :
    ConventionalCommit.new p.format = .ok p := by
  obtain ⟨htm, hpc⟩ := new_ok_inv m p hp
  set m2 := if prune_message m = [] then m else prune_message m with hm2def
  obtain ⟨hd, tail, hsp, hnl, hbuild⟩ := parseCore_ok_inv m2 p hpc
  have hedge : noNlEdge (trimNl (joinNN tail)) := noNlEdge_trimNl _
  obtain ⟨hfmt, hFHnl, hreparse, hdisj⟩ :=
    reparse_eq hd (trimNl (joinNN tail)) p hnl hedge hbuild hb
  have hdnl : '\n' ∉ hd := not_mem_of_contains_false hd '\n' hnl
  obtain ⟨hline_head, hx_nil, hx_cons⟩ := split2_head_line m2 hd tail hsp hdnl
  have hSPshape : (match p.scope with
      | some s => '(' :: (s ++ [')'])
      | none => ([] : Str)) = [] ∨
      ∃ y, (match p.scope with
      | some s => '(' :: (s ++ [')'])
      | none => ([] : Str)) = '(' :: y := by
    rcases p.scope with _ | s
    · exact Or.inl rfl
    · exact Or.inr ⟨s ++ [')'], rfl⟩
  have hmain : trimStr p.format ≠ [] ∧
      (prune_message p.format = [] ∨ prune_message p.format = p.format) := by
    by_cases hpm : prune_message m = []
    · -- the preamble filter emptied the raw message: every line is blank or a header
      have hm2 : m2 = m := by rw [hm2def, if_pos hpm]
      have htm2 : trimStr m2 ≠ [] := by rw [hm2]; exact htm
      have hm2ne : m2 ≠ [] := fun h0 => htm2 (by rw [h0]; rfl)
      have hbh2 : ∀ l ∈ rustLines m2, trimStr l = [] ∨ is_git_header l = true := by
        rw [hm2]
        exact prune_empty_bh m hpm
      have hdline : hd ∈ rustLines m2 := head_mem_rustLines m2 hm2ne hd hline_head
      have hFHhd : formatHeader p = hd := by
        rcases hdisj with h | ⟨t, ctype, hstd, hpt, hctne, hcta, halias, hFH, hhd⟩
        · exact h
        · exfalso
          rcases hbh2 hd hdline with hblank | hheader
          · rcases hct : ctype with _ | ⟨c0, cr⟩
            · exact hctne hct
            · have hc0hd : c0 ∈ hd := by
                rw [hhd, hct]
                exact List.mem_append.mpr (Or.inl (List.mem_append.mpr
                  (Or.inl (List.mem_cons_self _ _))))
              have hws := (trimStr_eq_nil_iff hd).mp hblank c0 hc0hd
              have hident := hcta c0 (by rw [hct]; exact List.mem_cons_self _ _)
              rw [ident_not_ws c0 hident] at hws
              exact Bool.noConfusion hws
          · have hno := is_git_header_of_alias ctype _ p.subject hctne hcta
              hSPshape halias
            rw [← hhd] at hno
            rw [hheader] at hno
            exact Bool.noConfusion hno
      -- a non-whitespace character of the original message survives into the print
      obtain ⟨ch, hchm, hchw⟩ : ∃ ch ∈ m2, isWs ch = false := by
        by_contra hcon
        push_neg at hcon
        apply htm2
        apply (trimStr_eq_nil_iff m2).mpr
        intro c hc
        have h2 := hcon c hc
        simpa using h2
      have hchnl : ch ≠ '\n' := by
        intro h0
        rw [h0, ws_nl] at hchw
        exact Bool.noConfusion hchw
      constructor
      · -- the print does not trim to nothing
        intro h0
        have hall := (trimStr_eq_nil_iff _).mp h0
        have hchfp : ch ∈ p.format := by
          rcases hta : tail with _ | ⟨t1, ts⟩
          · have hm2hd := hx_nil hta
            have hsecnil : trimNl (joinNN tail) = [] := by rw [hta]; rfl
            rw [hfmt, if_pos hsecnil, List.append_nil, hFHhd, ← hm2hd]
            exact hchm
          · have hm2eq := hx_cons (by rw [hta]; simp)
            rw [hm2eq] at hchm
            rcases List.mem_append.mp hchm with h1 | h1
            · rw [hfmt, hFHhd]
              exact List.mem_append.mpr (Or.inl h1)
            · have hchX : ch ∈ joinNN tail := by
                rcases List.mem_cons.mp h1 with h2 | h2
                · exact absurd h2 hchnl
                · rcases List.mem_cons.mp h2 with h3 | h3
                  · exact absurd h3 hchnl
                  · exact h3
              have hchsec : ch ∈ trimNl (joinNN tail) :=
                mem_trimNl _ ch hchX hchnl
              have hsecne : trimNl (joinNN tail) ≠ [] := by
                intro h2
                rw [h2] at hchsec
                simp at hchsec
              rw [hfmt, if_neg hsecne]
              exact List.mem_append.mpr (Or.inr
                (List.mem_cons_of_mem _ (List.mem_cons_of_mem _ hchsec)))
        rw [hall ch hchfp] at hchw
        exact Bool.noConfusion hchw
      · -- every printed line is blank or a header, so the reparse prune is empty
        left
        apply prune_of_all_bh
        intro l hl
        have hlsp := mem_splitChar_of_mem_rustLines _ l hl
        by_cases hsec : trimNl (joinNN tail) = []
        · rw [hfmt, if_pos hsec, List.append_nil, hFHhd,
            splitChar_single '\n' hd hdnl] at hlsp
          rw [List.mem_singleton] at hlsp
          subst hlsp
          exact hbh2 l hdline
        · rw [hfmt, if_neg hsec, hFHhd, splitChar_format hd _ hdnl] at hlsp
          rcases List.mem_cons.mp hlsp with rfl | hl2
          · exact hbh2 l hdline
          · rcases List.mem_cons.mp hl2 with rfl | hl3
            · exact Or.inl rfl
            · have htailne : tail ≠ [] := by
                intro h0
                apply hsec
                rw [h0]
                rfl
              have hm2eq := hx_cons htailne
              have hlX : l ∈ splitChar '\n' (joinNN tail) := by
                have hst := splitChar_trimNl (joinNN tail) hsec
                rw [hst] at hl3
                exact mem_of_mem_stripEnds _ l hl3
              have hlm2 : l ∈ splitChar '\n' m2 := by
                rw [hm2eq, splitChar_format hd _ hdnl]
                exact List.mem_cons_of_mem _ (List.mem_cons_of_mem _ hlX)
              rcases mem_rustLines_or_nil m2 hm2ne l hlm2 with h4 | h4
              · exact hbh2 l h4
              · rw [h4]
                exact Or.inl rfl
    · -- the message survives pruning: the parsed text is trimmed line by line
      have hm2 : m2 = prune_message m := by rw [hm2def, if_neg hpm]
      have hm2ne : m2 ≠ [] := by rw [hm2]; exact hpm
      obtain ⟨hlinesP, l0, rest0, hsplit0, hl0b, hl0h⟩ := prune_props m hpm
      have hlinesM2 : ∀ l ∈ splitChar '\n' m2, trimStr l = l ∧ '\n' ∉ l := by
        rw [hm2]
        exact hlinesP
      have hsplitM2 : splitChar '\n' m2 = l0 :: rest0 := by
        rw [hm2]
        exact hsplit0
      have hl0hd : l0 = hd := by
        rw [hsplitM2] at hline_head
        exact Option.some.inj hline_head
      rw [hl0hd] at hsplitM2 hl0b hl0h
      have hhd_mem : hd ∈ splitChar '\n' m2 := by
        rw [hsplitM2]
        exact List.mem_cons_self _ _
      have hhd_trim : trimStr hd = hd := (hlinesM2 hd hhd_mem).1
      have htrm2 : trimStr m2 = m2 := by
        rw [hm2]
        exact trimStr_prune m
      -- facts about the printed header
      have hFH_facts : trimStr (formatHeader p) = formatHeader p ∧
          trimStr (formatHeader p) ≠ [] ∧ is_git_header (formatHeader p) = false := by
        rcases hdisj with h | ⟨t, ctype, hstd, hpt, hctne, hcta, halias, hFH, hhd⟩
        · rw [h]
          exact ⟨hhd_trim, by rw [hhd_trim]; intro h2; exact hl0b (by rw [h2]; rfl), hl0h⟩
        · obtain ⟨hane, haid, hafs, hanws, hannl, -, -, -⟩ := std_facts t hstd
          -- the subject is nonempty, for the original header is right-trimmed
          have hsubjne : p.subject ≠ [] := by
            intro h0
            have hlast2 : hd.getLast? = some ' ' := by
              rw [hhd, h0]
              rw [show (ctype ++ (match p.scope with
                  | some s => '(' :: (s ++ [')'])
                  | none => ([] : Str))) ++ ':' :: ' ' :: ([] : Str) =
                (ctype ++ (match p.scope with
                  | some s => '(' :: (s ++ [')'])
                  | none => ([] : Str))) ++ [':', ' '] from rfl]
              rw [getLast?_append_ne _ _ (by simp)]
              rfl
            have hws2 := trim_last_not_ws hd hhd_trim ' ' hlast2
            exact absurd hws2 (by decide)
          obtain ⟨cl, hcl⟩ : ∃ cl, p.subject.getLast? = some cl := by
            rcases hsj : p.subject with _ | ⟨u, us⟩
            · exact absurd hsj hsubjne
            · exact ⟨(u :: us).getLast (by simp),
                List.getLast?_eq_getLast _ (by simp)⟩
          have hhd_last : hd.getLast? = p.subject.getLast? := by
            rw [hhd]
            rw [show (ctype ++ (match p.scope with
                | some s => '(' :: (s ++ [')'])
                | none => ([] : Str))) ++ ':' :: ' ' :: p.subject =
              ((ctype ++ (match p.scope with
                | some s => '(' :: (s ++ [')'])
                | none => ([] : Str))) ++ [':', ' ']) ++ p.subject by simp]
            rw [getLast?_append_ne _ _ hsubjne]
          have hclws : isWs cl = false := by
            apply trim_last_not_ws hd hhd_trim
            rw [hhd_last, hcl]
          have hFH_last : (formatHeader p).getLast? = some cl := by
            rw [hFH]
            rw [show (t.as_str ++ (match p.scope with
                | some s => '(' :: (s ++ [')'])
                | none => ([] : Str))) ++ ':' :: ' ' :: p.subject =
              ((t.as_str ++ (match p.scope with
                | some s => '(' :: (s ++ [')'])
                | none => ([] : Str))) ++ [':', ' ']) ++ p.subject by simp]
            rw [getLast?_append_ne _ _ hsubjne]
            exact hcl
          have hFHne : formatHeader p ≠ [] := by
            rw [hFH]
            rcases has2 : t.as_str with _ | ⟨a0, ar⟩
            · exact absurd has2 hane
            · simp
          have hFH_trim : trimStr (formatHeader p) = formatHeader p := by
            apply trimStr_eq_self_of
            · apply dropWhile_eq_self_of_head
              intro c2 hc2
              rcases has2 : t.as_str with _ | ⟨a0, ar⟩
              · exact absurd has2 hane
              · rw [hFH, has2] at hc2
                rw [show ((a0 :: ar) ++ (match p.scope with
                    | some s => '(' :: (s ++ [')'])
                    | none => ([] : Str))) ++ ':' :: ' ' :: p.subject =
                  a0 :: ((ar ++ (match p.scope with
                    | some s => '(' :: (s ++ [')'])
                    | none => ([] : Str))) ++ ':' :: ' ' :: p.subject) by simp] at hc2
                rw [List.head?_cons] at hc2
                rw [← Option.some.inj hc2]
                exact hanws a0 (by rw [has2]; exact List.mem_cons_self _ _)
            · exact rev_dropWhile_of_last _ cl hFH_last hclws
          refine ⟨hFH_trim, by rw [hFH_trim]; exact hFHne, ?_⟩
          have hno := is_git_header_of_alias t.as_str _ p.subject hane haid
            hSPshape (fromStr_alias_of_std t.as_str t hstd hafs)
          rw [← hFH] at hno
          exact hno
      obtain ⟨hFH_trim, hFH_b, hFH_h⟩ := hFH_facts
      have hFHne : formatHeader p ≠ [] := fun h0 => hFH_b (by rw [h0]; rfl)
      -- the printed section lines are trimmed
      have hseclines : ∀ l ∈ splitChar '\n' (trimNl (joinNN tail)), trimStr l = l := by
        intro l hl
        by_cases hsec : trimNl (joinNN tail) = []
        · rw [hsec] at hl
          have hl2 : l ∈ [([] : Str)] := hl
          rw [List.mem_singleton] at hl2
          rw [hl2]
          rfl
        · have htailne : tail ≠ [] := by
            intro h0
            apply hsec
            rw [h0]
            rfl
          have hm2eq := hx_cons htailne
          have hst := splitChar_trimNl (joinNN tail) hsec
          rw [hst] at hl
          have hlX := mem_of_mem_stripEnds _ l hl
          have hlm2 : l ∈ splitChar '\n' m2 := by
            rw [hm2eq, splitChar_format hd _ hdnl]
            exact List.mem_cons_of_mem _ (List.mem_cons_of_mem _ hlX)
          exact (hlinesM2 l hlm2).1
      -- line structure of the printed message
      have hfp_lines : ∀ l ∈ splitChar '\n' p.format, trimStr l = l := by
        intro l hl
        by_cases hsec : trimNl (joinNN tail) = []
        · rw [hfmt, if_pos hsec, List.append_nil,
            splitChar_single '\n' _ hFHnl] at hl
          rw [List.mem_singleton] at hl
          rw [hl]
          exact hFH_trim
        · rw [hfmt, if_neg hsec, splitChar_format _ _ hFHnl] at hl
          rcases List.mem_cons.mp hl with rfl | hl2
          · exact hFH_trim
          · rcases List.mem_cons.mp hl2 with rfl | hl3
            · rfl
            · exact hseclines l hl3
      have hfp_head : ∀ lh, (splitChar '\n' p.format).head? = some lh →
          trimStr lh ≠ [] ∧ is_git_header lh = false := by
        intro lh hlh
        have hfh : (splitChar '\n' p.format).head? = some (formatHeader p) := by
          by_cases hsec : trimNl (joinNN tail) = []
          · rw [hfmt, if_pos hsec, List.append_nil, splitChar_single '\n' _ hFHnl]
            rfl
          · rw [hfmt, if_neg hsec, splitChar_format _ _ hFHnl]
            rfl
        rw [hfh] at hlh
        rw [← Option.some.inj hlh]
        exact ⟨hFH_b, hFH_h⟩
      have hfpne : p.format ≠ [] := by
        intro h0
        rw [hfmt] at h0
        rcases List.append_eq_nil.mp h0 with ⟨h1, -⟩
        exact hFHne h1
      have hfp_last : p.format.getLast? ≠ some '\n' := by
        by_cases hsec : trimNl (joinNN tail) = []
        · rw [hfmt, if_pos hsec, List.append_nil]
          exact getLast?_ne_of_not_mem _ _ hFHnl
        · rw [hfmt, if_neg hsec]
          rw [getLast?_append_ne _ _ (by simp)]
          rw [show ('\n' :: '\n' :: trimNl (joinNN tail) : Str) =
            ['\n', '\n'] ++ trimNl (joinNN tail) from rfl]
          rw [getLast?_append_ne _ _ hsec]
          exact hedge.2
      have hfp_trim : trimStr p.format = p.format := by
        apply trimStr_eq_self_of
        · apply dropWhile_eq_self_of_head
          intro c2 hc2
          rcases hFH2 : formatHeader p with _ | ⟨f0, fr⟩
          · exact absurd hFH2 hFHne
          · rw [hfmt, hFH2, List.cons_append, List.head?_cons] at hc2
            rw [← Option.some.inj hc2]
            apply trim_head_not_ws (formatHeader p) hFH_trim
            rw [hFH2]
            rfl
        · obtain ⟨cl2, hcl2⟩ : ∃ cl2, p.format.getLast? = some cl2 := by
            rcases hfp2 : p.format with _ | ⟨u, us⟩
            · exact absurd hfp2 hfpne
            · exact ⟨(u :: us).getLast (by simp),
                List.getLast?_eq_getLast _ (by simp)⟩
          apply rev_dropWhile_of_last _ cl2 hcl2
          exact getLast_not_ws_of_lines p.format hfpne hfp_lines hfp_last cl2 hcl2
      refine ⟨by rw [hfp_trim]; exact hfpne, Or.inr ?_⟩
      exact prune_eq_self p.format hfpne hfp_lines hfp_head hfp_trim hfp_last
  obtain ⟨htfp, hpfp⟩ := hmain
  simp only [ConventionalCommit.new]
  rw [if_neg htfp]
  rcases hpfp with h | h
  · rw [if_pos h]
    exact hreparse
  · by_cases h0 : prune_message p.format = []
    · rw [if_pos h0]
      exact hreparse
    · rw [if_neg h0, h]
      exact hreparse



/-- Claim C6, counterexample to the unamended statement: the breaking header
feat BANG colon space x parses with no footer, while the reparse of its
formatted rendering carries a BREAKING CHANGE footer, so the two parse results
differ. -/
theorem C6_roundtrip_counterexample :
    ConventionalCommit.new "feat!: x".data = .ok cexP1 ∧
    ConventionalCommit.new (ConventionalCommit.format cexP1) = .ok cexP2 ∧
    cexP1.footer ≠ cexP2.footer :=
  ⟨rfl, rfl, by simp [cexP1, cexP2]⟩

/-- Witness for C6_roundtrip at the message fix colon space y. -/
theorem C6_roundtrip_witness :
    ConventionalCommit.new (ConventionalCommit.format cexP3) = .ok cexP3 :=
  C6_roundtrip "fix: y".data cexP3 rfl rfl

end Semrel
